import Mathlib

/-!
Verification of `templatestatic.go` (package `templatestatic`).

The Go code rewrites an `html/template` forest: sub-templates named
`static-css-*` / `static-js-*` are rendered to files and redefined so that
rendered output carries `<link>` / `<script>` reference tags, auto-injected
before the first literal `</head>` when no explicit `\x7b\x7btemplate\x7d\x7d`
invocation places them.

The shallow embedding models, from the source:
  * the `text/template/parse` node kinds the code inspects
    (`TextNode`, `IfNode`, `RangeNode`, `WithNode`, `TemplateNode`;
    every other node kind is opaque to the code and is modelled by
    `Node.action`, which carries the bytes it would emit when executed);
  * the template forest as an ordered list of named trees (the spec's
    `TemplateForest`, section 3, declares the forest ordered; the engine's
    enumeration is the collaborator that realises it);
  * template execution as a fuel-indexed interpreter (the engine's
    execution semantics are an external collaborator per spec section 1;
    data-dependent choices of conditionals/loops/opaque actions are baked
    into the data-specialised tree, and the fuel bounds invocation depth
    the way the engine's own execution-depth limit does);
  * the filesystem as an explicit state with injectable read / mkdir /
    write failures, file contents and modification times.

Functions keep the source names: `Parse`, `findPlacedTemplates`,
`walkTree`'s collection (as `placedInList`), `injectBeforeCloseHead`,
`injectInList`, `writeIfChanged`.
-/

namespace TemplateStatic

/-- Parse-tree node, after the node kinds `templatestatic.go` inspects:
`text` is `parse.TextNode`, `cond`/`loop`/`scope` are `parse.IfNode` /
`parse.RangeNode` / `parse.WithNode` with primary body and else body,
`invoke` is `parse.TemplateNode`, and `action` is any other node kind,
opaque to the code, carrying the bytes it emits when executed. The
data-dependent branch decision of a conditional (`taken`), the iteration
count of a loop (`count`) and an opaque node's output are the
data-specialised values for the single data value a `Parse` call uses. -/
inductive Node : Type where
  | text (s : String)
  | action (out : String)
  | invoke (name : String)
  | cond (taken : Bool) (list elseList : List Node)
  | loop (count : Nat) (list elseList : List Node)
  | scope (taken : Bool) (list elseList : List Node)
deriving Repr

/-- Named tree of the forest; `body = none` models a template whose
`Tree` field is `nil` (declared but not defined). -/
structure Tree where
  name : String
  body : Option (List Node)
deriving Repr

/-- Template forest: ordered collection of named trees sharing one
namespace (spec section 3 `TemplateForest`). -/
abbrev Forest := List Tree

/-- Classification marker for stylesheet trees (source: `"static-css-"`). -/
def cssMark : String := "static-css-"

/-- Classification marker for script trees (source: `"static-js-"`). -/
def jsMark : String := "static-js-"

/-- Closing-head marker the injector searches for (source: `"</head>"`). -/
def marker : String := "</head>"

/-- Index of the first occurrence of `needle` in `hay`, on character
lists; models `bytes.Index`. -/
def findSubAux (needle : List Char) : List Char → Option Nat
  | [] => if needle = [] then some 0 else none
  | c :: t =>
    if needle.isPrefixOf (c :: t) then some 0
    else (findSubAux needle t).map (· + 1)

/-- Index of the first occurrence of `needle` in `hay` (string form). -/
def findSub (hay needle : String) : Option Nat :=
  findSubAux needle.data hay.data

/-- Whether a string contains the closing-head marker. -/
def containsMark (s : String) : Bool := (findSub s marker).isSome

/-- Splice `tags` into `s` immediately before the first occurrence of the
closing-head marker; `s` unchanged when the marker is absent. Models the
`n.Text = append(n.Text[:i], append([]byte(tags), n.Text[i:]...)...)`
update of `injectInList`. -/
def spliceStr (tags s : String) : String :=
  match findSub s marker with
  | some i => String.mk (s.data.take i ++ tags.data ++ s.data.drop i)
  | none => s

/-- CSS reference tag (source: `Parse`, the `static-css-` case). -/
def cssTagOf (url suffix : String) : String :=
  "<link rel=\"stylesheet\" href=\"" ++ url ++ "/" ++ suffix ++ ".css" ++ "\">"

/-- JS reference tag (source: `Parse`, the `static-js-` case). -/
def jsTagOf (url suffix : String) : String :=
  "<script src=\"" ++ url ++ "/" ++ suffix ++ ".js" ++ "\"></script>"

/-- Model of `strings.HasPrefix`, character-wise. -/
def strHasPref (p s : String) : Bool := p.data.isPrefixOf s.data

/-- Model of `strings.TrimPrefix` for the case the prefix matches. -/
def strTrimPref (p s : String) : String := String.mk (s.data.drop p.data.length)

/-- Classify a tree name: `some (suffix, true)` for a CSS tree,
`some (suffix, false)` for a JS tree, `none` otherwise; mirrors the
`switch`/`strings.HasPrefix`/`strings.TrimPrefix` in `Parse`, CSS checked
first. -/
def classifyName (name : String) : Option (String × Bool) :=
  if strHasPref cssMark name then some (strTrimPref cssMark name, true)
  else if strHasPref jsMark name then some (strTrimPref jsMark name, false)
  else none

/-- Whether a name carries one of the two classification markers; mirrors
the condition tested by `findPlacedTemplates` on `parse.TemplateNode`
targets. -/
def isClassifiedName (name : String) : Bool :=
  strHasPref cssMark name || strHasPref jsMark name

mutual
/-- Classified names this node explicitly invokes, collected in the order
`walkTree` visits nodes; a `parse.TemplateNode` contributes its target
name when classified. -/
def placedInNode : Node → List String
  | .text _ => []
  | .action _ => []
  | .invoke name => if isClassifiedName name then [name] else []
  | .cond _ l e => placedInList l ++ placedInList e
  | .loop _ l e => placedInList l ++ placedInList e
  | .scope _ l e => placedInList l ++ placedInList e
/-- Classified invocation targets of a node list, in `walkTree` order. -/
def placedInList : List Node → List String
  | [] => []
  | n :: r => placedInNode n ++ placedInList r
end

/-- Set (as a membership list) of classified names explicitly invoked
anywhere in the forest; models `findPlacedTemplates`, which walks every
tree with a non-nil `Tree` field. -/
def findPlacedTemplates (f : Forest) : List String :=
  match f with
  | [] => []
  | t :: r =>
    (match t.body with
     | none => []
     | some b => placedInList b) ++ findPlacedTemplates r

mutual
/-- Try to splice `tags` before the first closing-head marker inside one
node, recursing into conditional / loop / scoping bodies, primary body
first; models the per-node cases of `injectInList`. -/
def injectInNode (tags : String) : Node → Option Node
  | .text s =>
    match findSub s marker with
    | some _ => some (.text (spliceStr tags s))
    | none => none
  | .action _ => none
  | .invoke _ => none
  | .cond b l e =>
    match injectInList tags l with
    | some l' => some (.cond b l' e)
    | none => (injectInList tags e).map (fun e' => .cond b l e')
  | .loop c l e =>
    match injectInList tags l with
    | some l' => some (.loop c l' e)
    | none => (injectInList tags e).map (fun e' => .loop c l e')
  | .scope b l e =>
    match injectInList tags l with
    | some l' => some (.scope b l' e)
    | none => (injectInList tags e).map (fun e' => .scope b l e')
/-- Walk a node list in order, splicing `tags` into the first text node
(depth first) that contains the closing-head marker; `none` when no node
of the list contains it. Models `injectInList`. -/
def injectInList (tags : String) : List Node → Option (List Node)
  | [] => none
  | n :: r =>
    match injectInNode tags n with
    | some n' => some (n' :: r)
    | none => (injectInList tags r).map (fun r' => n :: r')
end

/-- Splice `tags` before the first closing-head marker across the whole
forest, trying trees in enumeration order, skipping nil trees, and
stopping after the first successful splice; models
`injectBeforeCloseHead`. -/
def injectBeforeCloseHead (tags : String) : Forest → Forest
  | [] => []
  | t :: r =>
    match t.body with
    | none => t :: injectBeforeCloseHead tags r
    | some b =>
      match injectInList tags b with
      | some b' => ⟨t.name, some b'⟩ :: r
      | none => t :: injectBeforeCloseHead tags r

mutual
/-- Execute one node against the forest: text and opaque nodes emit their
bytes, control nodes run the chosen body (a loop repeats its body `count`
times, or runs the else body when `count = 0`), and an invocation runs
the named tree, failing when the name is undefined or its tree is nil.
Fuel decreases at every step and bounds recursion the way the engine's
execution-depth limit does; `none` is an execution error. -/
def execNode (f : Forest) : Nat → Node → Option String
  | 0, _ => none
  | _ + 1, .text s => some s
  | _ + 1, .action s => some s
  | fuel + 1, .invoke name =>
    match f.find? (fun t => t.name == name) with
    | some t =>
      match t.body with
      | some b => execList f fuel b
      | none => none
    | none => none
  | fuel + 1, .cond taken l e =>
    if taken then execList f fuel l else execList f fuel e
  | fuel + 1, .loop count l e =>
    if count = 0 then execList f fuel e
    else (execList f fuel l).map (fun s => String.join (List.replicate count s))
  | fuel + 1, .scope taken l e =>
    if taken then execList f fuel l else execList f fuel e
/-- Execute a node list in order, concatenating the outputs. -/
def execList (f : Forest) : Nat → List Node → Option String
  | 0, _ => none
  | _ + 1, [] => some ""
  | fuel + 1, n :: r =>
    match execNode f fuel n with
    | none => none
    | some s => (execList f fuel r).map (fun s' => s ++ s')
end

/-- Execute an optional tree body; a nil tree is an execution error
(the engine rejects an incomplete template). -/
def execBody (f : Forest) (fuel : Nat) : Option (List Node) → Option String
  | some b => execList f fuel b
  | none => none

/-- Execute the named tree of the forest, as `ExecuteTemplate` does. -/
def execTree (f : Forest) (fuel : Nat) (name : String) : Option String :=
  match f.find? (fun t => t.name == name) with
  | some t => execBody f fuel t.body
  | none => none

/-- One classified asset, rendered; mirrors the `staticDef` record of
`Parse` (`name`, `filename = suffix + ext`, `tag`, `content`, `isCSS`). -/
structure StaticDef where
  name : String
  filename : String
  tag : String
  content : String
  isCSS : Bool
deriving Repr, DecidableEq

/-- Build one `StaticDef` the way the classification `switch` of `Parse`
does. -/
def mkStatic (url name suffix : String) (isCSS : Bool) (content : String) :
    StaticDef :=
  if isCSS then
    ⟨name, suffix ++ ".css", cssTagOf url suffix, content, true⟩
  else
    ⟨name, suffix ++ ".js", jsTagOf url suffix, content, false⟩

/-- Error kinds a `Parse` call surfaces: a render failure of the named
classified tree, a directory-creation failure, or a file-write failure. -/
inductive PError where
  | renderErr (name : String)
  | mkdirErr (dir : String)
  | writeErr (path : String)
deriving Repr, DecidableEq

/-- First loop of `Parse`: walk the render clone's trees in enumeration
order, classify each name, execute each classified tree against the data
value and collect the rendered assets; the first execution error aborts
the whole call. `f` is the full forest invocations resolve against,
`rest` the enumeration tail still to visit. -/
def collectStatics (f : Forest) (fuel : Nat) (url : String) :
    (rest : List Tree) → Except PError (List StaticDef)
  | [] => .ok []
  | t :: r =>
    match classifyName t.name with
    | none => collectStatics f fuel url r
    | some (suffix, isCSS) =>
      match execBody f fuel t.body with
      | none => .error (.renderErr t.name)
      | some content =>
        match collectStatics f fuel url r with
        | .error e => .error e
        | .ok rest => .ok (mkStatic url t.name suffix isCSS content :: rest)

/-- Stored file: content bytes and modification time. -/
structure FileInfo where
  content : String
  mtime : Nat
deriving Repr, DecidableEq

/-- Filesystem state: files with contents and modification times, the set
of existing directories, environment-injected failure sets for reads
(read errors other than non-existence, e.g. permission errors), directory
creation and writes, and a clock stamped onto writes. -/
structure FS where
  files : List (String × FileInfo)
  dirs : List String
  readFails : List String
  mkdirFails : List String
  writeFails : List String
  now : Nat
deriving Repr, DecidableEq

/-- File stored at a path, if any. -/
def FS.lookup (fs : FS) (p : String) : Option FileInfo :=
  (fs.files.find? (fun e => e.1 == p)).map (fun e => e.2)

/-- Replace the first entry for `p`, or append a new one. -/
def setEntry (p : String) (fi : FileInfo) :
    List (String × FileInfo) → List (String × FileInfo)
  | [] => [(p, fi)]
  | e :: r => if e.1 == p then (p, fi) :: r else e :: setEntry p fi r

/-- Store `c` at `p` stamped with the current clock, advancing the clock. -/
def FS.setFile (fs : FS) (p c : String) : FS :=
  { fs with files := setEntry p ⟨c, fs.now⟩ fs.files, now := fs.now + 1 }

/-- Model of `os.ReadFile`: `none` on a missing file or an injected read
failure. -/
def FS.readFile (fs : FS) (p : String) : Option String :=
  if fs.readFails.contains p then none
  else (fs.lookup p).map (fun fi => fi.content)

/-- Split a character list at every slash (the separators are dropped,
empty segments kept), the way `strings.Split(s, "/")` does. -/
def splitOnSlash : List Char → List (List Char)
  | [] => [[]]
  | c :: t =>
    if c = '/' then [] :: splitOnSlash t
    else
      match splitOnSlash t with
      | [] => [[c]]
      | h :: t' => (c :: h) :: t'

/-- Slash-separated segments of a path. -/
def pathParts (path : String) : List String :=
  (splitOnSlash path.data).map String.mk

/-- Directory part of a slash-separated path; models `filepath.Dir` for
the plain paths `Parse` builds (no trailing slashes). -/
def dirOf (path : String) : String :=
  let parts := pathParts path
  if parts.length ≤ 1 then "."
  else
    let d := String.intercalate "/" parts.dropLast
    if d = "" then "/" else d

/-- The chain of directories `os.MkdirAll` ensures: every proper ancestor
of `d` followed by `d` itself. -/
def dirPaths (d : String) : List String :=
  let parts := pathParts d
  ((List.range (parts.length - 1)).map
    (fun i => String.intercalate "/" (parts.take (i + 1)))) ++ [d]

/-- Append a directory if absent. -/
def addDir (ds : List String) (d : String) : List String :=
  if ds.contains d then ds else ds ++ [d]

/-- Model of `os.MkdirAll`: fails on an injected failure for `d`,
otherwise ensures `d` and its ancestors exist. -/
def FS.mkdirAll (fs : FS) (d : String) : Option FS :=
  if fs.mkdirFails.contains d then none
  else some { fs with dirs := (dirPaths d).foldl addDir fs.dirs }

/-- Model of `os.WriteFile`: fails on an injected failure, otherwise
replaces the file with fresh content and a fresh modification time. -/
def FS.writeFile (fs : FS) (p c : String) : Option FS :=
  if fs.writeFails.contains p then none else some (fs.setFile p c)

/-- Model of `writeIfChanged`: ensure the directory exists; if the
existing file reads back byte-identical to `content`, leave the
filesystem's files untouched; otherwise (including when the read fails
for any reason) write the new content. -/
def writeIfChanged (fs : FS) (path content : String) : Except PError FS :=
  match fs.mkdirAll (dirOf path) with
  | none => .error (.mkdirErr (dirOf path))
  | some fs1 =>
    match fs1.readFile path with
    | some existing =>
      if existing == content then .ok fs1
      else
        match fs1.writeFile path content with
        | none => .error (.writeErr path)
        | some fs2 => .ok fs2
    | none =>
      match fs1.writeFile path content with
      | none => .error (.writeErr path)
      | some fs2 => .ok fs2

/-- Second loop of `Parse`: for each asset in order, write its file, then
record its redefinition — body `[text tag]` when the name is in the
placement set, empty body otherwise — collecting the tags of unplaced
assets into the CSS and JS groups. A write error aborts the loop, leaving
the files already written in place. -/
def rewriteLoop (placed : List String) (dir : String) :
    FS → List StaticDef →
    FS × Except PError (List (String × List Node) × List String × List String)
  | fs, [] => (fs, .ok ([], [], []))
  | fs, s :: r =>
    match writeIfChanged fs (dir ++ "/" ++ s.filename) s.content with
    | .error e => (fs, .error e)
    | .ok fs' =>
      match rewriteLoop placed dir fs' r with
      | (fs'', .error e) => (fs'', .error e)
      | (fs'', .ok (redefs, autoCSS, autoJS)) =>
        if placed.contains s.name then
          (fs'', .ok ((s.name, [Node.text s.tag]) :: redefs, autoCSS, autoJS))
        else if s.isCSS then
          (fs'', .ok ((s.name, ([] : List Node)) :: redefs, s.tag :: autoCSS, autoJS))
        else
          (fs'', .ok ((s.name, ([] : List Node)) :: redefs, autoCSS, s.tag :: autoJS))

/-- Modelled from the spec: the engine capability "parsing additional
text to add/replace named-tree definitions" (spec section 3,
`TemplateForest`), which `Parse` exercises through
`resultClone.Parse(strings.Join(redefs, ""))`; each synthesised
`define` block re-parses to a body holding a single text node, or to an
empty body. Replaces the named tree's definition, or appends a new tree. -/
def define1 (f : Forest) (name : String) (body : List Node) : Forest :=
  if f.any (fun t => t.name == name) then
    f.map (fun t => if t.name == name then ⟨name, some body⟩ else t)
  else f ++ [⟨name, some body⟩]

/-- Apply the synthesised redefinitions in order. -/
def applyRedefs (f : Forest) : List (String × List Node) → Forest
  | [] => f
  | (name, body) :: r => applyRedefs (define1 f name body) r

/-- Model of `Parse`: clone the forest for rendering, collect and render
the classified assets, clone again for rewriting, compute the placement
set, write the files and build the redefinitions, apply them, and splice
the concatenated unplaced tags (CSS group before JS group) before the
first closing-head marker when that tag string is non-empty. Returns the
filesystem after any writes together with the rewritten forest or the
first error. Cloning is by value here; the heap-level `ParseH` below
accounts for which template object each step touches. -/
def Parse (t : Forest) (fuel : Nat) (fs : FS) (outputDir url : String) :
    FS × Except PError Forest :=
  let renderClone := t
  match collectStatics renderClone fuel url renderClone with
  | .error e => (fs, .error e)
  | .ok statics =>
    let resultClone := t
    let placed := findPlacedTemplates resultClone
    match rewriteLoop placed outputDir fs statics with
    | (fs', .error e) => (fs', .error e)
    | (fs', .ok (redefs, autoCSS, autoJS)) =>
      let g := applyRedefs resultClone redefs
      let autoTags := String.join (autoCSS ++ autoJS)
      if autoTags = "" then (fs', .ok g)
      else (fs', .ok (injectBeforeCloseHead autoTags g))

/-- Heap of template objects. Go's `Parse` mutates template objects in
place (`resultClone.Parse`, the text splicing of `injectInList`); to
state that those mutations never touch the caller's original, the heap
model gives every template object a slot and records which slot each
step of `Parse` writes. -/
structure World where
  tmpls : List Forest
deriving Repr

/-- Heap-level `Parse` on the template object in slot `h`: clone it into
a fresh slot for rendering (`renderClone := t.Clone()`), render the
classified assets from that clone, clone again into a second fresh slot
(`resultClone := t.Clone()`), write files, and apply the redefinitions
and the head splice as an update of the result clone's slot only. The
value returned to the caller is the result clone's slot index. -/
def ParseH (w : World) (h : Nat) (fuel : Nat)
    (fs : FS) (outputDir url : String) : World × FS × Except PError Nat :=
  let t := w.tmpls.getD h []
  let w1 : World := ⟨w.tmpls ++ [t]⟩
  match collectStatics t fuel url t with
  | .error e => (w1, fs, .error e)
  | .ok statics =>
    let w2 : World := ⟨w1.tmpls ++ [t]⟩
    let resIdx := w1.tmpls.length
    let placed := findPlacedTemplates t
    match rewriteLoop placed outputDir fs statics with
    | (fs', .error e) => (w2, fs', .error e)
    | (fs', .ok (redefs, autoCSS, autoJS)) =>
      let g := applyRedefs t redefs
      let autoTags := String.join (autoCSS ++ autoJS)
      let g' := if autoTags = "" then g else injectBeforeCloseHead autoTags g
      (⟨w2.tmpls.set resIdx g'⟩, fs', .ok resIdx)

mutual
/-- Literal texts of one node in the depth-first order `injectInList`
visits them: a text node's own text; for conditional / loop / scoping
nodes the primary body's texts, then the else body's. -/
def textsOfNode : Node → List String
  | .text s => [s]
  | .action _ => []
  | .invoke _ => []
  | .cond _ l e => textsOfList l ++ textsOfList e
  | .loop _ l e => textsOfList l ++ textsOfList e
  | .scope _ l e => textsOfList l ++ textsOfList e
/-- Literal texts of a node list in depth-first order. -/
def textsOfList : List Node → List String
  | [] => []
  | n :: r => textsOfNode n ++ textsOfList r
end

/-- Literal texts of an optional tree body (a nil tree has none). -/
def bodyTexts : Option (List Node) → List String
  | none => []
  | some b => textsOfList b

/-- Literal texts of the forest, trees in enumeration order. -/
def forestTexts : Forest → List String
  | [] => []
  | t :: r => bodyTexts t.body ++ forestTexts r

mutual
/-- Skeleton of a node with every text content erased; two node lists
with equal skeletons and equal depth-first text lists are equal, so the
pair captures "only this text changed". -/
def shapeNode : Node → Node
  | .text _ => .text ""
  | .action s => .action s
  | .invoke n => .invoke n
  | .cond b l e => .cond b (shapeList l) (shapeList e)
  | .loop c l e => .loop c (shapeList l) (shapeList e)
  | .scope b l e => .scope b (shapeList l) (shapeList e)
/-- Skeletons of a node list. -/
def shapeList : List Node → List Node
  | [] => []
  | n :: r => shapeNode n :: shapeList r
end

/-- Skeleton of an optional tree body. -/
def bodyShape : Option (List Node) → Option (List Node)
  | none => none
  | some b => some (shapeList b)

/-- Skeletons of the forest, with tree names. -/
def forestShape (f : Forest) : List (String × Option (List Node)) :=
  f.map (fun t => (t.name, bodyShape t.body))

mutual
/-- Every invocation target of a node, classified or not, at any depth
(the reading of the spec's Placement Analyzer contract, section 4.3,
independent of `findPlacedTemplates`). -/
def invokedNode : Node → List String
  | .text _ => []
  | .action _ => []
  | .invoke name => [name]
  | .cond _ l e => invokedList l ++ invokedList e
  | .loop _ l e => invokedList l ++ invokedList e
  | .scope _ l e => invokedList l ++ invokedList e
/-- Every invocation target of a node list. -/
def invokedList : List Node → List String
  | [] => []
  | n :: r => invokedNode n ++ invokedList r
end

/-- The spec's reading of the Head Injector (section 4.5) on the
depth-first text list alone: the first text containing the closing-head
marker gets `tags` spliced in immediately before the marker's first
occurrence, every other text is unchanged; `none` when no text contains
the marker. -/
def spliceTexts (tags : String) : List String → Option (List String)
  | [] => none
  | s :: r =>
    if containsMark s then some (spliceStr tags s :: r)
    else (spliceTexts tags r).map (fun r' => s :: r')

/-- Total form of `spliceTexts`: the text list unchanged when no text
contains the marker. -/
def spliceTextsD (tags : String) (ts : List String) : List String :=
  (spliceTexts tags ts).getD ts

/-- Destination path of an asset's file, `filepath.Join(outputDir,
filename)` modelled as slash concatenation. -/
def staticPath (dir : String) (s : StaticDef) : String :=
  dir ++ "/" ++ s.filename

/-- Asset produced for one tree, if any: the tree must classify and its
body must render. Packaging of one step of the first loop of `Parse`. -/
def staticOf (f : Forest) (fuel : Nat) (url : String) (t : Tree) :
    Option StaticDef :=
  match classifyName t.name with
  | none => none
  | some (sfx, b) => (execBody f fuel t.body).map (mkStatic url t.name sfx b)

/-- Empty filesystem for the concrete instances below. -/
def fsEmpty : FS := ⟨[], [], [], [], [], 0⟩

/-- Filesystem whose one file suffers injected read failures although it
already stores the content about to be written. -/
def fsReadFail : FS := ⟨[("o/a.css", ⟨"x", 0⟩)], [], ["o/a.css"], [], [], 5⟩

/-- Forest whose single classified tree has a nil body, so rendering it
fails. -/
def nilBodyForest : Forest := [⟨"static-css-a", none⟩]

/-- Unplaced CSS asset for concrete runs. -/
def wsc : StaticDef := ⟨"static-css-a", "a.css", "tagA", "bodyA", true⟩

/-- Unplaced JS asset for concrete runs. -/
def wsj : StaticDef := ⟨"static-js-b", "b.js", "tagB", "bodyB", false⟩

/-- Filesystem state after writing `wsc` and `wsj` into `"o"`. -/
def wfs6 : FS :=
  ⟨[("o/a.css", ⟨"bodyA", 0⟩), ("o/b.js", ⟨"bodyB", 1⟩)],
   ["o"], [], [], [], 2⟩

/-- Forest whose page tree invokes a classified name inside a
conditional body. -/
def w5f : Forest :=
  [⟨"page", some [.cond true [.invoke "static-css-a"] [], .text "x"]⟩]

/-- Forest exercising the depth-first order of the injector: the first
marker-containing text sits in an else body of the first tree. -/
def w3f : Forest :=
  [⟨"a", some [.cond true [.text "no"] [.text "x</head>y"]]⟩,
   ⟨"b", some [.text "z</head>"]⟩]

/-- One-slot heap holding the forest of `w3f`. -/
def wWorld : World := ⟨[w3f]⟩

/-- Scenario-A-style forest: one CSS tree, one JS tree, a page with a
head section; nothing explicitly placed. -/
def w9f : Forest :=
  [⟨"static-css-main", some [.text "bodyA"]⟩,
   ⟨"static-js-app", some [.text "bodyB"]⟩,
   ⟨"page", some [.text "<html><head><title>T</title></head>x"]⟩]

/-- Filesystem produced by parsing `w9f` over the empty filesystem. -/
def fs9 : FS := (Parse w9f 9 fsEmpty "o" "/s").1

/-- Forest produced by parsing `w9f` over the empty filesystem. -/
def g9 : Forest :=
  match (Parse w9f 9 fsEmpty "o" "/s").2 with
  | .ok g => g
  | .error _ => []

/-- Forest with an explicitly placed CSS tree and an unplaced JS tree. -/
def w4f : Forest :=
  [⟨"static-css-crit", some [.text "c1"]⟩,
   ⟨"static-js-app", some [.text "j1"]⟩,
   ⟨"page", some [.invoke "static-css-crit", .text "<head></head>"]⟩]

/-- Assets collected from `w4f`. -/
def w4statics : List StaticDef :=
  [⟨"static-css-crit", "crit.css", cssTagOf "/s" "crit", "c1", true⟩,
   ⟨"static-js-app", "app.js", jsTagOf "/s" "app", "j1", false⟩]

/-- The placed CSS asset of `w4f`. -/
def wStatic4 : StaticDef :=
  ⟨"static-css-crit", "crit.css", cssTagOf "/s" "crit", "c1", true⟩

/-- Filesystem produced by parsing `w4f` over the empty filesystem. -/
def fs4 : FS := (Parse w4f 9 fsEmpty "o" "/s").1

/-- Forest produced by parsing `w4f` over the empty filesystem. -/
def g4 : Forest :=
  match (Parse w4f 9 fsEmpty "o" "/s").2 with
  | .ok g => g
  | .error _ => []

/-- Marker-free forest: one CSS tree, one JS tree, a page with no head
section. -/
def w7f : Forest :=
  [⟨"static-css-a", some [.text "bodyA"]⟩,
   ⟨"static-js-b", some [.text "bodyB"]⟩,
   ⟨"page", some [.text "hello"]⟩]

/-- Assets collected from `w7f`. -/
def w7statics : List StaticDef :=
  [⟨"static-css-a", "a.css", cssTagOf "/s" "a", "bodyA", true⟩,
   ⟨"static-js-b", "b.js", jsTagOf "/s" "b", "bodyB", false⟩]

/-- Filesystem after the write loop of `Parse` on `w7f`. -/
def fs7 : FS :=
  (rewriteLoop (findPlacedTemplates w7f) "o" fsEmpty w7statics).1

/-- Redefinitions produced for `w7f`: both assets unplaced, so both
bodies empty. -/
def r7 : List (String × List Node) :=
  [("static-css-a", []), ("static-js-b", [])]

/-- Auto-collected CSS tags of `w7f`. -/
def a7 : List String := [cssTagOf "/s" "a"]

/-- Auto-collected JS tags of `w7f`. -/
def j7 : List String := [jsTagOf "/s" "b"]

/-- Forest with no marker anywhere whose page text happens to equal the
CSS tag literal. -/
def w7cex : Forest :=
  [⟨"static-css-a", some [.text "x"]⟩,
   ⟨"page", some [.text (cssTagOf "/s" "a")]⟩]

/-- The CSS tree of `w9f`. -/
def w1c : Tree := ⟨"static-css-main", some [.text "bodyA"]⟩

/-- The JS tree of `w9f`. -/
def w1j : Tree := ⟨"static-js-app", some [.text "bodyB"]⟩

/-! Helper lemmas about the filesystem model. -/

theorem find?_setEntry_self (p : String) (fi : FileInfo) :
    ∀ l : List (String × FileInfo),
      (setEntry p fi l).find? (fun e => e.1 == p) = some (p, fi)
  | [] => by simp [setEntry]
  | e :: r => by
    by_cases h : e.1 = p
    · simp [setEntry, h]
    · simp [setEntry, h, find?_setEntry_self p fi r]

theorem find?_setEntry_ne (p q : String) (fi : FileInfo) (hqp : q ≠ p) :
    ∀ l : List (String × FileInfo),
      (setEntry p fi l).find? (fun e => e.1 == q) =
        l.find? (fun e => e.1 == q)
  | [] => by
    show List.find? (fun e => e.1 == q) [(p, fi)] = List.find? (fun e => e.1 == q) []
    rw [List.find?_cons_of_neg _ (by simp [Ne.symm hqp])]
  | e :: r => by
    rw [setEntry]
    by_cases h : e.1 = p
    · rw [if_pos (by simp [h])]
      rw [List.find?_cons_of_neg _ (by simp [Ne.symm hqp]),
          List.find?_cons_of_neg _ (by simp [h, Ne.symm hqp])]
    · rw [if_neg (by simp [h])]
      by_cases h2 : e.1 = q
      · rw [List.find?_cons_of_pos _ (by simp [h2]),
            List.find?_cons_of_pos _ (by simp [h2])]
      · rw [List.find?_cons_of_neg _ (by simp [h2]),
            List.find?_cons_of_neg _ (by simp [h2]),
            find?_setEntry_ne p q fi hqp r]

theorem lookup_setFile_self (fs : FS) (p c : String) :
    (fs.setFile p c).lookup p = some ⟨c, fs.now⟩ := by
  simp [FS.lookup, FS.setFile, find?_setEntry_self]

theorem lookup_setFile_ne (fs : FS) (p q c : String) (h : q ≠ p) :
    (fs.setFile p c).lookup q = fs.lookup q := by
  simp [FS.lookup, FS.setFile, find?_setEntry_ne p q _ h]

theorem mem_addDir_self (ds : List String) (d : String) : d ∈ addDir ds d := by
  by_cases h : d ∈ ds <;> simp [addDir, h]

theorem mem_addDir_of_mem (ds : List String) (d x : String) (h : x ∈ ds) :
    x ∈ addDir ds d := by
  by_cases hc : d ∈ ds <;> simp [addDir, hc, h]

theorem mem_foldl_addDir_of_mem (x : String) :
    ∀ (l ds : List String), x ∈ ds → x ∈ l.foldl addDir ds
  | [], _, h => h
  | d :: r, ds, h =>
    mem_foldl_addDir_of_mem x r (addDir ds d) (mem_addDir_of_mem ds d x h)

theorem mem_foldl_addDir_of_mem_arg (x : String) :
    ∀ (l ds : List String), x ∈ l → x ∈ l.foldl addDir ds
  | [], _, h => absurd h (List.not_mem_nil x)
  | d :: r, ds, h => by
    rcases List.mem_cons.mp h with h | h
    · exact h ▸ mem_foldl_addDir_of_mem x r (addDir ds x) (mem_addDir_self ds x)
    · exact mem_foldl_addDir_of_mem_arg x r (addDir ds d) h

theorem addDir_of_mem (ds : List String) (d : String) (h : d ∈ ds) :
    addDir ds d = ds := by
  simp [addDir, h]

theorem foldl_addDir_of_subset :
    ∀ (l ds : List String), (∀ x ∈ l, x ∈ ds) → l.foldl addDir ds = ds
  | [], _, _ => rfl
  | d :: r, ds, h => by
    rw [List.foldl_cons, addDir_of_mem ds d (h d (List.mem_cons_self d r))]
    exact foldl_addDir_of_subset r ds (fun x hx => h x (List.mem_cons_of_mem d hx))

theorem self_mem_dirPaths (d : String) : d ∈ dirPaths d := by
  simp [dirPaths]

/-- Successful `mkdirAll` leaves everything except the directory set
unchanged, keeps the old directories, and ensures the requested chain. -/
theorem mkdirAll_ok (fs : FS) (d : String)
    (h : d ∉ fs.mkdirFails) :
    ∃ fs1, fs.mkdirAll d = some fs1
      ∧ fs1.files = fs.files ∧ fs1.readFails = fs.readFails
      ∧ fs1.mkdirFails = fs.mkdirFails ∧ fs1.writeFails = fs.writeFails
      ∧ fs1.now = fs.now ∧ (∀ x ∈ dirPaths d, x ∈ fs1.dirs)
      ∧ (∀ x ∈ fs.dirs, x ∈ fs1.dirs) := by
  refine ⟨{ fs with dirs := (dirPaths d).foldl addDir fs.dirs }, ?_,
    rfl, rfl, rfl, rfl, rfl, ?_, ?_⟩
  · simp [FS.mkdirAll, h]
  · exact fun x hx => mem_foldl_addDir_of_mem_arg x _ fs.dirs hx
  · exact fun x hx => mem_foldl_addDir_of_mem x _ fs.dirs hx

/-- A `mkdirAll` whose whole chain already exists is the identity. -/
theorem mkdirAll_of_dirs (fs : FS) (d : String)
    (h : d ∉ fs.mkdirFails)
    (hsub : ∀ x ∈ dirPaths d, x ∈ fs.dirs) :
    fs.mkdirAll d = some fs := by
  have hfold : (dirPaths d).foldl addDir fs.dirs = fs.dirs :=
    foldl_addDir_of_subset _ _ hsub
  simp [FS.mkdirAll, h, hfold]

theorem lookup_congr_files (fs1 fs : FS) (h : fs1.files = fs.files) :
    ∀ q, fs1.lookup q = fs.lookup q := by
  intro q; simp [FS.lookup, h]

theorem readFile_congr (fs1 fs : FS) (hf : fs1.files = fs.files)
    (hr : fs1.readFails = fs.readFails) :
    ∀ q, fs1.readFile q = fs.readFile q := by
  intro q; simp [FS.readFile, hr, lookup_congr_files fs1 fs hf q]

theorem mkdirAll_some (fs : FS) (d : String) (fs1 : FS)
    (h : fs.mkdirAll d = some fs1) :
    fs1.files = fs.files ∧ fs1.readFails = fs.readFails
    ∧ fs1.mkdirFails = fs.mkdirFails ∧ fs1.writeFails = fs.writeFails
    ∧ fs1.now = fs.now ∧ (∀ x ∈ dirPaths d, x ∈ fs1.dirs)
    ∧ (∀ x ∈ fs.dirs, x ∈ fs1.dirs) := by
  unfold FS.mkdirAll at h
  split at h
  · exact absurd h (by simp)
  · rw [Option.some.injEq] at h
    subst h
    exact ⟨rfl, rfl, rfl, rfl, rfl,
      fun x hx => mem_foldl_addDir_of_mem_arg x _ fs.dirs hx,
      fun x hx => mem_foldl_addDir_of_mem x _ fs.dirs hx⟩

/-- Unfolding equation for `writeIfChanged` once the directory creation
has succeeded. -/
theorem writeIfChanged_eq_of (fs fs1 : FS) (p c : String)
    (hmk : fs.mkdirAll (dirOf p) = some fs1) :
    writeIfChanged fs p c =
      (match fs1.readFile p with
       | some existing =>
         if existing == c then .ok fs1
         else
           match fs1.writeFile p c with
           | none => .error (.writeErr p)
           | some fs2 => .ok fs2
       | none =>
         match fs1.writeFile p c with
         | none => .error (.writeErr p)
         | some fs2 => .ok fs2) := by
  unfold writeIfChanged
  rw [hmk]

/-- Everything a successful `writeIfChanged` guarantees: the file now
holds `content`, no other file changed, the failure sets are untouched,
directories only grew and the destination directory exists. -/
theorem writeIfChanged_ok_post (fs : FS) (p c : String) (fs' : FS)
    (h : writeIfChanged fs p c = .ok fs') :
    (∃ m, fs'.lookup p = some ⟨c, m⟩)
    ∧ (∀ q, q ≠ p → fs'.lookup q = fs.lookup q)
    ∧ fs'.readFails = fs.readFails ∧ fs'.mkdirFails = fs.mkdirFails
    ∧ fs'.writeFails = fs.writeFails
    ∧ (∀ x ∈ fs.dirs, x ∈ fs'.dirs)
    ∧ (∀ x ∈ dirPaths (dirOf p), x ∈ fs'.dirs)
    ∧ dirOf p ∉ fs.mkdirFails := by
  unfold writeIfChanged at h
  split at h
  · exact absurd h (by simp)
  rename_i fs1 hm
  have hnofail : dirOf p ∉ fs.mkdirFails := by
    intro hin
    unfold FS.mkdirAll at hm
    rw [if_pos (by simpa using hin)] at hm
    exact absurd hm (by simp)
  obtain ⟨hf, hr, hmf, hwf, hn, hd, hdm⟩ := mkdirAll_some fs (dirOf p) fs1 hm
  split at h
  · rename_i existing hrd
    split at h
    · rename_i hec
      rw [Except.ok.injEq] at h
      rw [beq_iff_eq] at hec
      subst hec
      subst h
      unfold FS.readFile at hrd
      split at hrd
      · exact absurd hrd (by simp)
      refine ⟨?_, fun q _ => lookup_congr_files fs1 fs hf q, hr, hmf, hwf, hdm, hd,
        hnofail⟩
      cases hlk : fs1.lookup p with
      | none =>
        rw [hlk] at hrd
        exact absurd hrd (by simp)
      | some fi =>
        rw [hlk] at hrd
        simp only [Option.map_some'] at hrd
        rw [Option.some.injEq] at hrd
        refine ⟨fi.mtime, ?_⟩
        rw [← hrd]
    · split at h
      · exact absurd h (by simp)
      rename_i fs2 hw
      rw [Except.ok.injEq] at h
      subst h
      unfold FS.writeFile at hw
      split at hw
      · exact absurd hw (by simp)
      rw [Option.some.injEq] at hw
      subst hw
      exact ⟨⟨fs1.now, lookup_setFile_self fs1 p c⟩,
        fun q hq => by
          rw [lookup_setFile_ne fs1 p q c hq, lookup_congr_files fs1 fs hf q],
        hr, hmf, hwf, fun x hx => hdm x hx, hd, hnofail⟩
  · split at h
    · exact absurd h (by simp)
    rename_i fs2 hw
    rw [Except.ok.injEq] at h
    subst h
    unfold FS.writeFile at hw
    split at hw
    · exact absurd hw (by simp)
    rw [Option.some.injEq] at hw
    subst hw
    exact ⟨⟨fs1.now, lookup_setFile_self fs1 p c⟩,
      fun q hq => by
        rw [lookup_setFile_ne fs1 p q c hq, lookup_congr_files fs1 fs hf q],
      hr, hmf, hwf, fun x hx => hdm x hx, hd, hnofail⟩

/-- When the existing file reads back identical, `writeIfChanged` leaves
files, clock and failure sets untouched (only directories may be
created). -/
theorem writeIfChanged_skip (fs : FS) (p c : String)
    (hm : dirOf p ∉ fs.mkdirFails) (heq : fs.readFile p = some c) :
    ∃ fs', writeIfChanged fs p c = .ok fs'
      ∧ fs'.files = fs.files ∧ fs'.now = fs.now
      ∧ fs'.readFails = fs.readFails ∧ fs'.mkdirFails = fs.mkdirFails
      ∧ fs'.writeFails = fs.writeFails
      ∧ (∀ x ∈ fs.dirs, x ∈ fs'.dirs)
      ∧ (∀ x ∈ dirPaths (dirOf p), x ∈ fs'.dirs) := by
  obtain ⟨fs1, hmk, hf, hr, hmf, hwf, hn, _, hdm⟩ := mkdirAll_ok fs (dirOf p) hm
  have hrd : fs1.readFile p = some c := by
    rw [readFile_congr fs1 fs hf hr p]; exact heq
  refine ⟨fs1, ?_, hf, hn, hr, hmf, hwf, hdm, ?_⟩
  · rw [writeIfChanged_eq_of fs fs1 p c hmk, hrd]
    simp
  · intro x hx
    have hmem : x ∈ (dirPaths (dirOf p)).foldl addDir fs.dirs :=
      mem_foldl_addDir_of_mem_arg x _ fs.dirs hx
    unfold FS.mkdirAll at hmk
    split at hmk
    · exact absurd hmk (by simp)
    · rw [Option.some.injEq] at hmk
      rw [← hmk]
      exact hmem

/-- When reading back does not yield `content`, a successful
`writeIfChanged` stores fresh content with a fresh modification time. -/
theorem writeIfChanged_write (fs : FS) (p c : String)
    (hm : dirOf p ∉ fs.mkdirFails) (hw : p ∉ fs.writeFails)
    (hne : fs.readFile p ≠ some c) :
    ∃ fs', writeIfChanged fs p c = .ok fs'
      ∧ fs'.lookup p = some ⟨c, fs.now⟩ ∧ fs'.now = fs.now + 1
      ∧ (∀ q, q ≠ p → fs'.lookup q = fs.lookup q)
      ∧ fs'.readFails = fs.readFails ∧ fs'.mkdirFails = fs.mkdirFails
      ∧ fs'.writeFails = fs.writeFails := by
  obtain ⟨fs1, hmk, hf, hr, hmf, hwf, hn, _, _⟩ := mkdirAll_ok fs (dirOf p) hm
  have hwok : fs1.writeFile p c = some (fs1.setFile p c) := by
    unfold FS.writeFile
    rw [if_neg (by rw [hwf]; simpa using hw)]
  have hfin : ∀ q, q ≠ p → (fs1.setFile p c).lookup q = fs.lookup q := by
    intro q hq
    rw [lookup_setFile_ne fs1 p q c hq, lookup_congr_files fs1 fs hf q]
  have hself : (fs1.setFile p c).lookup p = some ⟨c, fs.now⟩ := by
    rw [lookup_setFile_self fs1 p c, hn]
  refine ⟨fs1.setFile p c, ?_, hself, by simp [FS.setFile, hn],
    hfin, by simp [FS.setFile, hr], by simp [FS.setFile, hmf],
    by simp [FS.setFile, hwf]⟩
  rw [writeIfChanged_eq_of fs fs1 p c hmk]
  cases hrd : fs1.readFile p with
  | none => rw [hwok]
  | some existing =>
    have hexc : existing ≠ c := by
      intro hEq
      exact hne (by rw [← readFile_congr fs1 fs hf hr p, hrd, hEq])
    dsimp only
    rw [if_neg (by simp [hexc]), hwok]

/-- A `writeIfChanged` whose directory chain already exists and whose
file already holds `content` is the identity on the filesystem. -/
theorem writeIfChanged_id (fs : FS) (p c : String)
    (hm : dirOf p ∉ fs.mkdirFails)
    (hsub : ∀ x ∈ dirPaths (dirOf p), x ∈ fs.dirs)
    (heq : fs.readFile p = some c) :
    writeIfChanged fs p c = .ok fs := by
  rw [writeIfChanged_eq_of fs fs p c (mkdirAll_of_dirs fs (dirOf p) hm hsub), heq]
  simp

/-- The only errors `writeIfChanged` can return are the directory
creation error and the write error for its own path. -/
theorem writeIfChanged_error (fs : FS) (p c : String) (e : PError)
    (h : writeIfChanged fs p c = .error e) :
    e = .mkdirErr (dirOf p) ∨ e = .writeErr p := by
  unfold writeIfChanged at h
  split at h
  · rw [Except.error.injEq] at h
    exact Or.inl h.symm
  split at h
  · split at h
    · exact absurd h (by simp)
    · split at h
      · rw [Except.error.injEq] at h
        exact Or.inr h.symm
      · exact absurd h (by simp)
  · split at h
    · rw [Except.error.injEq] at h
      exact Or.inr h.symm
    · exact absurd h (by simp)

/-- On an injected read failure `writeIfChanged` skips the comparison
and overwrites, even when the stored content already equals the new
content. -/
theorem writeIfChanged_readFail (fs : FS) (p c : String)
    (hr : p ∈ fs.readFails) (hm : dirOf p ∉ fs.mkdirFails)
    (hw : p ∉ fs.writeFails) :
    ∃ fs', writeIfChanged fs p c = .ok fs'
      ∧ fs'.lookup p = some ⟨c, fs.now⟩ ∧ fs'.now = fs.now + 1 := by
  have hne : fs.readFile p ≠ some c := by
    unfold FS.readFile
    rw [if_pos (by simpa using hr)]
    simp
  obtain ⟨fs', h1, h2, h3, _⟩ := writeIfChanged_write fs p c hm hw hne
  exact ⟨fs', h1, h2, h3⟩

/-! Lemmas about the write-and-redefine loop of `Parse`. -/

theorem rewriteLoop_ok_shape (placed : List String) (dir : String) :
    ∀ (statics : List StaticDef) (fs fs' : FS) (redefs : List (String × List Node))
      (ac aj : List String),
      rewriteLoop placed dir fs statics = (fs', .ok (redefs, ac, aj)) →
      redefs = statics.map (fun s => (s.name,
          if placed.contains s.name then [Node.text s.tag] else ([] : List Node)))
      ∧ ac = (statics.filter
          (fun s => !placed.contains s.name && s.isCSS)).map (fun s => s.tag)
      ∧ aj = (statics.filter
          (fun s => !placed.contains s.name && !s.isCSS)).map (fun s => s.tag)
  | [], fs, fs', redefs, ac, aj => by
    intro h
    rw [rewriteLoop, Prod.mk.injEq] at h
    obtain ⟨h1, h2⟩ := h
    rw [Except.ok.injEq, Prod.mk.injEq, Prod.mk.injEq] at h2
    obtain ⟨e1, e2, e3⟩ := h2
    refine ⟨?_, ?_, ?_⟩ <;> simp_all
  | s :: r, fs, fs', redefs, ac, aj => by
    intro h
    rw [rewriteLoop] at h
    split at h
    · rw [Prod.mk.injEq] at h
      exact absurd h.2 (by simp)
    rename_i fs1 hw
    split at h
    · rw [Prod.mk.injEq] at h
      exact absurd h.2 (by simp)
    rename_i fs2 redefs1 ac1 aj1 hrec
    obtain ⟨ih1, ih2, ih3⟩ :=
      rewriteLoop_ok_shape placed dir r fs1 fs2 redefs1 ac1 aj1 hrec
    by_cases hp : placed.contains s.name
    · rw [if_pos hp, Prod.mk.injEq] at h
      obtain ⟨h1, h2⟩ := h
      rw [Except.ok.injEq, Prod.mk.injEq, Prod.mk.injEq] at h2
      obtain ⟨e1, e2, e3⟩ := h2
      refine ⟨?_, ?_, ?_⟩ <;> simp_all [List.filter_cons]
    · rw [if_neg hp] at h
      by_cases hc : s.isCSS
      · rw [if_pos hc, Prod.mk.injEq] at h
        obtain ⟨h1, h2⟩ := h
        rw [Except.ok.injEq, Prod.mk.injEq, Prod.mk.injEq] at h2
        obtain ⟨e1, e2, e3⟩ := h2
        refine ⟨?_, ?_, ?_⟩ <;> simp_all [List.filter_cons]
      · rw [if_neg hc, Prod.mk.injEq] at h
        obtain ⟨h1, h2⟩ := h
        rw [Except.ok.injEq, Prod.mk.injEq, Prod.mk.injEq] at h2
        obtain ⟨e1, e2, e3⟩ := h2
        refine ⟨?_, ?_, ?_⟩ <;> simp_all [List.filter_cons]

/-- The loop never touches the failure sets and only grows the
directory set, whether it succeeds or aborts on a write error. -/
theorem rewriteLoop_pres (placed : List String) (dir : String) :
    ∀ (statics : List StaticDef) (fs : FS)
      (out : FS × Except PError (List (String × List Node) × List String × List String)),
      rewriteLoop placed dir fs statics = out →
      out.1.readFails = fs.readFails ∧ out.1.mkdirFails = fs.mkdirFails
      ∧ out.1.writeFails = fs.writeFails
      ∧ (∀ x ∈ fs.dirs, x ∈ out.1.dirs)
  | [], fs, out => by
    intro h
    rw [rewriteLoop] at h
    rw [← h]
    exact ⟨rfl, rfl, rfl, fun x hx => hx⟩
  | s :: r, fs, out => by
    intro h
    rw [rewriteLoop] at h
    split at h
    · rw [← h]
      exact ⟨rfl, rfl, rfl, fun x hx => hx⟩
    rename_i fs1 hw
    obtain ⟨_, _, w1, w2, w3, w4, _, _⟩ :=
      writeIfChanged_ok_post fs (staticPath dir s) s.content fs1 hw
    have step : ∀ out1, rewriteLoop placed dir fs1 r = out1 →
        out1.1.readFails = fs.readFails ∧ out1.1.mkdirFails = fs.mkdirFails
        ∧ out1.1.writeFails = fs.writeFails
        ∧ (∀ x ∈ fs.dirs, x ∈ out1.1.dirs) := by
      intro out1 h1
      obtain ⟨p1, p2, p3, p4⟩ := rewriteLoop_pres placed dir r fs1 out1 h1
      exact ⟨by rw [p1, w1], by rw [p2, w2], by rw [p3, w3],
        fun x hx => p4 x (w4 x hx)⟩
    split at h
    · rename_i fs2 e hrec
      obtain ⟨p1, p2, p3, p4⟩ := step (fs2, .error e) hrec
      rw [← h]
      exact ⟨p1, p2, p3, p4⟩
    rename_i fs2 redefs1 ac1 aj1 hrec
    obtain ⟨p1, p2, p3, p4⟩ := step (fs2, .ok (redefs1, ac1, aj1)) hrec
    split at h <;> (try split at h) <;> (rw [← h]; exact ⟨p1, p2, p3, p4⟩)

/-- Paths outside the written asset paths are untouched by the loop. -/
theorem rewriteLoop_frame (placed : List String) (dir : String) :
    ∀ (statics : List StaticDef) (fs : FS)
      (out : FS × Except PError (List (String × List Node) × List String × List String)),
      rewriteLoop placed dir fs statics = out →
      ∀ q, (∀ s ∈ statics, q ≠ staticPath dir s) →
        out.1.lookup q = fs.lookup q
  | [], fs, out => by
    intro h q _
    rw [rewriteLoop] at h
    rw [← h]
  | s :: r, fs, out => by
    intro h q hq
    rw [rewriteLoop] at h
    split at h
    · rw [← h]
    rename_i fs1 hw
    obtain ⟨_, wfr, _, _, _, _, _, _⟩ :=
      writeIfChanged_ok_post fs (staticPath dir s) s.content fs1 hw
    have hq0 : fs1.lookup q = fs.lookup q :=
      wfr q (hq s (List.mem_cons_self s r))
    have hqr : ∀ s' ∈ r, q ≠ staticPath dir s' :=
      fun s' hs' => hq s' (List.mem_cons_of_mem s hs')
    have step : ∀ out1, rewriteLoop placed dir fs1 r = out1 →
        out1.1.lookup q = fs.lookup q := by
      intro out1 h1
      rw [rewriteLoop_frame placed dir r fs1 out1 h1 q hqr, hq0]
    split at h
    · rename_i fs2 e hrec
      rw [← h]
      exact step (fs2, .error e) hrec
    rename_i fs2 redefs1 ac1 aj1 hrec
    have hstep := step (fs2, .ok (redefs1, ac1, aj1)) hrec
    split at h <;> (try split at h) <;> (rw [← h]; exact hstep)

/-- After a successful loop every asset's file holds its content. -/
theorem rewriteLoop_content (placed : List String) (dir : String) :
    ∀ (statics : List StaticDef) (fs fs' : FS)
      (x : List (String × List Node) × List String × List String),
      (statics.map (staticPath dir)).Nodup →
      rewriteLoop placed dir fs statics = (fs', .ok x) →
      ∀ s ∈ statics, ∃ m, fs'.lookup (staticPath dir s) = some ⟨s.content, m⟩
  | [], fs, fs', x => by
    intro _ _ s hs
    exact absurd hs (List.not_mem_nil s)
  | s0 :: r, fs, fs', x => by
    intro hnd h s hs
    rw [rewriteLoop] at h
    split at h
    · rw [Prod.mk.injEq] at h
      exact absurd h.2 (by simp)
    rename_i fs1 hw
    split at h
    · rw [Prod.mk.injEq] at h
      exact absurd h.2 (by simp)
    rename_i fs2 redefs1 ac1 aj1 hrec
    have hfs : fs' = fs2 := by
      split at h <;> (try split at h) <;>
        (rw [Prod.mk.injEq] at h; exact h.1.symm)
    subst hfs
    rw [List.map_cons, List.nodup_cons] at hnd
    obtain ⟨hp0, hndr⟩ := hnd
    rcases List.mem_cons.mp hs with hs | hs
    · subst hs
      obtain ⟨⟨m, hm⟩, _, _, _, _, _, _, _⟩ :=
        writeIfChanged_ok_post fs (staticPath dir s) s.content fs1 hw
      have hfr : fs'.lookup (staticPath dir s) = fs1.lookup (staticPath dir s) :=
        rewriteLoop_frame placed dir r fs1 (fs', .ok (redefs1, ac1, aj1)) hrec
          (staticPath dir s) (fun s' hs' hEq =>
            hp0 (by rw [hEq]; exact List.mem_map_of_mem (staticPath dir) hs'))
      exact ⟨m, by rw [hfr, hm]⟩
    · exact rewriteLoop_content placed dir r fs1 fs' (redefs1, ac1, aj1) hndr hrec s hs

/-- Running the loop a second time over the filesystem it produced
changes nothing: every write hits the byte-identical skip branch. -/
theorem rewriteLoop_id (placed : List String) (dir : String) :
    ∀ (statics : List StaticDef) (fs fs' : FS)
      (x : List (String × List Node) × List String × List String),
      fs.readFails = [] →
      (statics.map (staticPath dir)).Nodup →
      rewriteLoop placed dir fs statics = (fs', .ok x) →
      rewriteLoop placed dir fs' statics = (fs', .ok x)
  | [], fs, fs', x => by
    intro _ _ h
    rw [rewriteLoop] at h ⊢
    rw [Prod.mk.injEq] at h
    rw [h.2]
  | s0 :: r, fs, fs', x => by
    intro hrf hnd h
    rw [rewriteLoop] at h
    split at h
    · rw [Prod.mk.injEq] at h
      exact absurd h.2 (by simp)
    rename_i fs1 hw
    split at h
    · rw [Prod.mk.injEq] at h
      exact absurd h.2 (by simp)
    rename_i fs2 redefs1 ac1 aj1 hrec
    have hfs2 : fs' = fs2 := by
      split at h <;> (try split at h) <;>
        (rw [Prod.mk.injEq] at h; exact h.1.symm)
    subst hfs2
    obtain ⟨_, _, w_r, w_m, w_w, w_d, w_chain, w_nf⟩ :=
      writeIfChanged_ok_post fs (staticPath dir s0) s0.content fs1 hw
    have p_r : fs'.readFails = fs1.readFails :=
      (rewriteLoop_pres placed dir r fs1 (fs', .ok (redefs1, ac1, aj1)) hrec).1
    have p_m : fs'.mkdirFails = fs1.mkdirFails :=
      (rewriteLoop_pres placed dir r fs1 (fs', .ok (redefs1, ac1, aj1)) hrec).2.1
    have p_d : ∀ y ∈ fs1.dirs, y ∈ fs'.dirs :=
      (rewriteLoop_pres placed dir r fs1 (fs', .ok (redefs1, ac1, aj1)) hrec).2.2.2
    rw [List.map_cons, List.nodup_cons] at hnd
    obtain ⟨hp0, hndr⟩ := hnd
    have hc0 : ∃ m, fs'.lookup (dir ++ "/" ++ s0.filename)
        = some ⟨s0.content, m⟩ := by
      obtain ⟨⟨m, hm⟩, _, _, _, _, _, _, _⟩ :=
        writeIfChanged_ok_post fs (staticPath dir s0) s0.content fs1 hw
      have hfr : fs'.lookup (staticPath dir s0) = fs1.lookup (staticPath dir s0) :=
        rewriteLoop_frame placed dir r fs1 (fs', .ok (redefs1, ac1, aj1)) hrec
          (staticPath dir s0) (fun s' hs' hEq =>
            hp0 (by rw [hEq]; exact List.mem_map_of_mem (staticPath dir) hs'))
      exact ⟨m, hfr.trans hm⟩
    have hw2 : writeIfChanged fs' (dir ++ "/" ++ s0.filename) s0.content
        = .ok fs' := by
      apply writeIfChanged_id
      · rw [p_m, w_m]
        exact w_nf
      · intro y hy
        exact p_d y (w_chain y hy)
      · obtain ⟨m, hm⟩ := hc0
        unfold FS.readFile
        rw [if_neg (by rw [p_r, w_r, hrf]; simp), hm]
        rfl
    have hrec2 :=
      rewriteLoop_id placed dir r fs1 fs' (redefs1, ac1, aj1)
        (by rw [w_r, hrf]) hndr hrec
    rw [rewriteLoop, hw2]
    dsimp only
    rw [hrec2]
    exact h

/-! Lemmas about classification and the render loop of `Parse`. -/

theorem classifyName_isSome (name : String) :
    (classifyName name).isSome = isClassifiedName name := by
  unfold classifyName isClassifiedName
  by_cases c1 : strHasPref cssMark name = true
  · simp [c1]
  · by_cases c2 : strHasPref jsMark name = true <;> simp [c1, c2]

theorem collectStatics_ok (f : Forest) (fuel : Nat) (url : String) :
    ∀ (l : List Tree) (statics : List StaticDef),
      collectStatics f fuel url l = .ok statics →
      statics = l.filterMap (staticOf f fuel url)
  | [], statics => by
    intro h
    rw [collectStatics] at h
    rw [Except.ok.injEq] at h
    rw [← h, List.filterMap_nil]
  | t :: r, statics => by
    intro h
    rw [collectStatics] at h
    rw [List.filterMap_cons]
    split at h
    · rename_i hcl
      have hnone : staticOf f fuel url t = none := by
        unfold staticOf
        rw [hcl]
      rw [hnone]
      exact collectStatics_ok f fuel url r statics h
    rename_i sfx b hcl
    split at h
    · exact absurd h (by simp)
    rename_i content hex
    split at h
    · exact absurd h (by simp)
    rename_i rest hrest
    rw [Except.ok.injEq] at h
    have hso : staticOf f fuel url t = some (mkStatic url t.name sfx b content) := by
      unfold staticOf
      rw [hcl]
      dsimp only
      rw [hex]
      rfl
    rw [hso, ← h, collectStatics_ok f fuel url r rest hrest]

theorem collectStatics_error (f : Forest) (fuel : Nat) (url : String) :
    ∀ (l : List Tree) (e : PError),
      collectStatics f fuel url l = .error e →
      ∃ t, t ∈ l ∧ isClassifiedName t.name = true
        ∧ execBody f fuel t.body = none ∧ e = .renderErr t.name
  | [], e => by
    intro h
    rw [collectStatics] at h
    exact absurd h (by simp)
  | t :: r, e => by
    intro h
    rw [collectStatics] at h
    split at h
    · obtain ⟨t', ht', rest⟩ := collectStatics_error f fuel url r e h
      exact ⟨t', List.mem_cons_of_mem t ht', rest⟩
    rename_i sfx b hcl
    split at h
    · rename_i hex
      rw [Except.error.injEq] at h
      refine ⟨t, List.mem_cons_self t r, ?_, hex, h.symm⟩
      rw [← classifyName_isSome, hcl]
      rfl
    rename_i content hex
    split at h
    · rename_i e' hrest
      rw [Except.error.injEq] at h
      obtain ⟨t', ht', h1, h2, h3⟩ := collectStatics_error f fuel url r e' hrest
      exact ⟨t', List.mem_cons_of_mem t ht', h1, h2, by rw [← h, h3]⟩
    · exact absurd h (by simp)

/-! Concatenation lemmas for `String.join`. -/

theorem foldl_append_init : ∀ (l : List String) (a : String),
    l.foldl (fun r s => r ++ s) a = a ++ String.join l
  | [], a => by simp [String.join]
  | s :: r, a => by
    unfold String.join
    rw [List.foldl_cons, List.foldl_cons, foldl_append_init r (a ++ s),
      foldl_append_init r ("" ++ s), String.empty_append, String.append_assoc]

theorem join_cons (s : String) (l : List String) :
    String.join (s :: l) = s ++ String.join l := by
  unfold String.join
  rw [List.foldl_cons, foldl_append_init l ("" ++ s), String.empty_append]
  rfl

theorem join_append : ∀ (a b : List String),
    String.join (a ++ b) = String.join a ++ String.join b
  | [], b => by simp [String.join]
  | s :: a, b => by
    rw [List.cons_append, join_cons, join_cons, join_append a b,
      String.append_assoc]

/-! Claim theorems C6, C8, C10 with their witnesses. -/

/-- C6: after a successful write-and-redefine loop, the deferred-tag
string `Parse` will hand to the Head Injector — the join of the CSS
group followed by the JS group — is the concatenation of the tags of all
classified assets not in the placement set, every CSS tag before every
JS tag, the loop's enumeration order preserved within each group. -/
theorem claim6 (placed : List String) (dir : String) (fs : FS)
    (statics : List StaticDef) (fs' : FS)
    (redefs : List (String × List Node)) (ac aj : List String)
    (h : rewriteLoop placed dir fs statics = (fs', .ok (redefs, ac, aj))) :
    ac = (statics.filter
        (fun s => !placed.contains s.name && s.isCSS)).map (fun s => s.tag)
    ∧ aj = (statics.filter
        (fun s => !placed.contains s.name && !s.isCSS)).map (fun s => s.tag)
    ∧ String.join (ac ++ aj)
      = String.join ((statics.filter
          (fun s => !placed.contains s.name && s.isCSS)).map (fun s => s.tag))
        ++ String.join ((statics.filter
          (fun s => !placed.contains s.name && !s.isCSS)).map (fun s => s.tag)) := by
  obtain ⟨h1, h2, h3⟩ := rewriteLoop_ok_shape placed dir statics fs fs' redefs ac aj h
  refine ⟨h2, h3, ?_⟩
  rw [h2, h3, join_append]

/-- Witness for C6 at a concrete run: one unplaced CSS and one unplaced
JS asset written into directory `o`. -/
theorem claim6_witness :
    rewriteLoop [] "o" fsEmpty [wsc, wsj]
      = (wfs6, .ok ([("static-css-a", []), ("static-js-b", [])],
          ["tagA"], ["tagB"]))
    ∧ (["tagA"] = ([wsc, wsj].filter
        (fun s => !List.contains [] s.name && s.isCSS)).map (fun s => s.tag)
      ∧ ["tagB"] = ([wsc, wsj].filter
        (fun s => !List.contains [] s.name && !s.isCSS)).map (fun s => s.tag)
      ∧ String.join (["tagA"] ++ ["tagB"])
        = String.join (([wsc, wsj].filter
            (fun s => !List.contains [] s.name && s.isCSS)).map (fun s => s.tag))
          ++ String.join (([wsc, wsj].filter
            (fun s => !List.contains [] s.name && !s.isCSS)).map (fun s => s.tag))) :=
  ⟨by rfl, claim6 [] "o" fsEmpty [wsc, wsj] wfs6
    [("static-css-a", []), ("static-js-b", [])] ["tagA"] ["tagB"] (by rfl)⟩

/-- C8: a render failure of a classified tree aborts `Parse` with that
engine error unchanged and with the filesystem exactly as it was —
every classified tree is rendered before the first file write. -/
theorem claim8 (f : Forest) (fuel : Nat) (fs : FS) (dir url : String)
    (e : PError) (h : collectStatics f fuel url f = .error e) :
    Parse f fuel fs dir url = (fs, .error e)
    ∧ ∃ t, t ∈ f ∧ isClassifiedName t.name = true
        ∧ execBody f fuel t.body = none ∧ e = .renderErr t.name := by
  constructor
  · simp only [Parse, h]
  · exact collectStatics_error f fuel url f e h

/-- Witness for C8: a classified tree with a nil body fails to render;
`Parse` returns the render error and the filesystem is untouched. -/
theorem claim8_witness :
    collectStatics nilBodyForest 5 "/s" nilBodyForest
      = .error (.renderErr "static-css-a")
    ∧ (Parse nilBodyForest 5 fsEmpty "o" "/s"
        = (fsEmpty, .error (.renderErr "static-css-a"))
      ∧ ∃ t, t ∈ nilBodyForest ∧ isClassifiedName t.name = true
          ∧ execBody nilBodyForest 5 t.body = none
          ∧ PError.renderErr "static-css-a" = .renderErr t.name) :=
  ⟨by rfl,
   claim8 nilBodyForest 5 fsEmpty "o" "/s" (.renderErr "static-css-a") (by rfl)⟩

/-- C10: the file writer never propagates a read error: on an injected
read failure it overwrites the file (fresh content and fresh
modification time, even when the stored bytes already match), and the
only errors it can return are the directory-creation error and the
write error. -/
theorem claim10 (fs : FS) (p c : String) :
    (p ∈ fs.readFails → dirOf p ∉ fs.mkdirFails → p ∉ fs.writeFails →
      ∃ fs', writeIfChanged fs p c = .ok fs'
        ∧ fs'.lookup p = some ⟨c, fs.now⟩ ∧ fs'.now = fs.now + 1)
    ∧ (∀ e, writeIfChanged fs p c = .error e →
        e = .mkdirErr (dirOf p) ∨ e = .writeErr p) :=
  ⟨fun hr hm hw => writeIfChanged_readFail fs p c hr hm hw,
   fun e he => writeIfChanged_error fs p c e he⟩

/-- Witness for C10: the stored content already equals the new content,
yet the read failure forces an overwrite with a fresh modification
time. -/
theorem claim10_witness :
    ("o/a.css" ∈ fsReadFail.readFails
      ∧ dirOf "o/a.css" ∉ fsReadFail.mkdirFails
      ∧ "o/a.css" ∉ fsReadFail.writeFails)
    ∧ (∃ fs', writeIfChanged fsReadFail "o/a.css" "x" = .ok fs'
        ∧ fs'.lookup "o/a.css" = some ⟨"x", fsReadFail.now⟩
        ∧ fs'.now = fsReadFail.now + 1) :=
  ⟨⟨by decide, by decide, by decide⟩,
   (claim10 fsReadFail "o/a.css" "x").1 (by decide) (by decide) (by decide)⟩

/-! Claim C5: the Placement Analyzer. -/

mutual
theorem placedInNode_eq : ∀ n : Node,
    placedInNode n = (invokedNode n).filter isClassifiedName
  | .text _ => rfl
  | .action _ => rfl
  | .invoke name => by
    by_cases h : isClassifiedName name = true <;>
      simp [placedInNode, invokedNode, List.filter, h]
  | .cond b l e => by
    simp only [placedInNode, invokedNode, List.filter_append,
      placedInList_eq l, placedInList_eq e]
  | .loop c l e => by
    simp only [placedInNode, invokedNode, List.filter_append,
      placedInList_eq l, placedInList_eq e]
  | .scope b l e => by
    simp only [placedInNode, invokedNode, List.filter_append,
      placedInList_eq l, placedInList_eq e]
theorem placedInList_eq : ∀ l : List Node,
    placedInList l = (invokedList l).filter isClassifiedName
  | [] => rfl
  | n :: r => by
    simp only [placedInList, invokedList, List.filter_append,
      placedInNode_eq n, placedInList_eq r]
end

/-- C5: the Placement Analyzer is a pure function of the forest's node
structure returning exactly the classified names that occur as the
target of an invocation node anywhere in any tree's body, at any depth
inside conditional, loop and scoping bodies; unclassified invocation
targets contribute nothing. -/
theorem claim5 : ∀ (f : Forest) (name : String),
    name ∈ findPlacedTemplates f ↔
      (isClassifiedName name = true
       ∧ ∃ t, t ∈ f ∧ ∃ b, t.body = some b ∧ name ∈ invokedList b)
  | [], name => by
    rw [findPlacedTemplates]
    simp
  | t :: r, name => by
    rw [findPlacedTemplates, List.mem_append]
    constructor
    · intro h
      rcases h with h | h
      · cases hb : t.body with
        | none =>
          rw [hb] at h
          dsimp only at h
          exact absurd h (List.not_mem_nil name)
        | some b =>
          rw [hb] at h
          dsimp only at h
          rw [placedInList_eq, List.mem_filter] at h
          exact ⟨h.2, t, List.mem_cons_self t r, b, hb, h.1⟩
      · obtain ⟨hc, t', ht', b, hb, hm⟩ := (claim5 r name).mp h
        exact ⟨hc, t', List.mem_cons_of_mem t ht', b, hb, hm⟩
    · rintro ⟨hc, t', ht', b, hb, hm⟩
      rcases List.mem_cons.mp ht' with heq | ht'
      · subst heq
        left
        rw [hb]
        dsimp only
        rw [placedInList_eq, List.mem_filter]
        exact ⟨hm, hc⟩
      · right
        exact (claim5 r name).mpr ⟨hc, t', ht', b, hb, hm⟩

/-- Witness for C5 at a concrete forest: the classified invocation sits
inside a conditional's primary body. -/
theorem claim5_witness :
    "static-css-a" ∈ findPlacedTemplates w5f ↔
      (isClassifiedName "static-css-a" = true
       ∧ ∃ t, t ∈ w5f ∧ ∃ b, t.body = some b
           ∧ "static-css-a" ∈ invokedList b) :=
  claim5 w5f "static-css-a"

/-! Lemmas characterising the Head Injector on the depth-first text
list and the shape skeleton. -/

theorem spliceTexts_append (tags : String) : ∀ (a b : List String),
    spliceTexts tags (a ++ b) =
      match spliceTexts tags a with
      | some a' => some (a' ++ b)
      | none => (spliceTexts tags b).map (fun b' => a ++ b')
  | [], b => by
    show spliceTexts tags b = (spliceTexts tags b).map (fun b' => [] ++ b')
    cases spliceTexts tags b <;> simp
  | s :: a, b => by
    by_cases hs : containsMark s = true
    · simp [spliceTexts, hs]
    · simp only [List.cons_append, spliceTexts, hs, Bool.false_eq_true, if_false,
        List.append_eq]
      rw [spliceTexts_append tags a b]
      cases ha : spliceTexts tags a with
      | some a' => simp
      | none =>
        cases hb : spliceTexts tags b with
        | some b' => simp
        | none => simp

mutual
theorem injectInNode_texts (tags : String) : ∀ n : Node,
    (injectInNode tags n).map textsOfNode = spliceTexts tags (textsOfNode n)
  | .text s => by
    simp only [injectInNode, textsOfNode]
    cases hf : findSub s marker with
    | some i => simp [spliceTexts, containsMark, hf, textsOfNode]
    | none => simp [spliceTexts, containsMark, hf]
  | .action s => by simp [injectInNode, textsOfNode, spliceTexts]
  | .invoke s => by simp [injectInNode, textsOfNode, spliceTexts]
  | .cond b l e => by
    simp only [injectInNode, textsOfNode]
    rw [spliceTexts_append tags _ _]
    have ihl := injectInList_texts tags l
    have ihe := injectInList_texts tags e
    cases hl : injectInList tags l with
    | some l' =>
      rw [hl] at ihl
      rw [← ihl]
      simp [textsOfNode]
    | none =>
      rw [hl] at ihl
      rw [← ihl]
      cases he : injectInList tags e with
      | some e' =>
        rw [he] at ihe
        rw [← ihe]
        simp [textsOfNode]
      | none =>
        rw [he] at ihe
        rw [← ihe]
        simp
  | .loop c l e => by
    simp only [injectInNode, textsOfNode]
    rw [spliceTexts_append tags _ _]
    have ihl := injectInList_texts tags l
    have ihe := injectInList_texts tags e
    cases hl : injectInList tags l with
    | some l' =>
      rw [hl] at ihl
      rw [← ihl]
      simp [textsOfNode]
    | none =>
      rw [hl] at ihl
      rw [← ihl]
      cases he : injectInList tags e with
      | some e' =>
        rw [he] at ihe
        rw [← ihe]
        simp [textsOfNode]
      | none =>
        rw [he] at ihe
        rw [← ihe]
        simp
  | .scope b l e => by
    simp only [injectInNode, textsOfNode]
    rw [spliceTexts_append tags _ _]
    have ihl := injectInList_texts tags l
    have ihe := injectInList_texts tags e
    cases hl : injectInList tags l with
    | some l' =>
      rw [hl] at ihl
      rw [← ihl]
      simp [textsOfNode]
    | none =>
      rw [hl] at ihl
      rw [← ihl]
      cases he : injectInList tags e with
      | some e' =>
        rw [he] at ihe
        rw [← ihe]
        simp [textsOfNode]
      | none =>
        rw [he] at ihe
        rw [← ihe]
        simp
theorem injectInList_texts (tags : String) : ∀ l : List Node,
    (injectInList tags l).map textsOfList = spliceTexts tags (textsOfList l)
  | [] => by simp [injectInList, textsOfList, spliceTexts]
  | n :: r => by
    simp only [injectInList, textsOfList]
    rw [spliceTexts_append tags _ _]
    have ihn := injectInNode_texts tags n
    have ihr := injectInList_texts tags r
    cases hn : injectInNode tags n with
    | some n' =>
      rw [hn] at ihn
      rw [← ihn]
      simp [textsOfList]
    | none =>
      rw [hn] at ihn
      rw [← ihn]
      cases hr : injectInList tags r with
      | some r' =>
        rw [hr] at ihr
        rw [← ihr]
        simp [textsOfList]
      | none =>
        rw [hr] at ihr
        rw [← ihr]
        simp
end

mutual
theorem injectInNode_shape (tags : String) : ∀ (n n' : Node),
    injectInNode tags n = some n' → shapeNode n' = shapeNode n
  | .text s, n' => by
    intro h
    simp only [injectInNode] at h
    split at h
    · rw [Option.some.injEq] at h
      rw [← h]
      rfl
    · exact absurd h (by simp)
  | .action s, n' => by
    intro h
    exact absurd h (by simp [injectInNode])
  | .invoke s, n' => by
    intro h
    exact absurd h (by simp [injectInNode])
  | .cond b l e, n' => by
    intro h
    simp only [injectInNode] at h
    split at h
    · rename_i l' hl
      rw [Option.some.injEq] at h
      rw [← h]
      simp only [shapeNode]
      rw [injectInList_shape tags l l' hl]
    · rw [Option.map_eq_some'] at h
      obtain ⟨e', he, hn⟩ := h
      rw [← hn]
      simp only [shapeNode]
      rw [injectInList_shape tags e e' he]
  | .loop c l e, n' => by
    intro h
    simp only [injectInNode] at h
    split at h
    · rename_i l' hl
      rw [Option.some.injEq] at h
      rw [← h]
      simp only [shapeNode]
      rw [injectInList_shape tags l l' hl]
    · rw [Option.map_eq_some'] at h
      obtain ⟨e', he, hn⟩ := h
      rw [← hn]
      simp only [shapeNode]
      rw [injectInList_shape tags e e' he]
  | .scope b l e, n' => by
    intro h
    simp only [injectInNode] at h
    split at h
    · rename_i l' hl
      rw [Option.some.injEq] at h
      rw [← h]
      simp only [shapeNode]
      rw [injectInList_shape tags l l' hl]
    · rw [Option.map_eq_some'] at h
      obtain ⟨e', he, hn⟩ := h
      rw [← hn]
      simp only [shapeNode]
      rw [injectInList_shape tags e e' he]
theorem injectInList_shape (tags : String) : ∀ (l l' : List Node),
    injectInList tags l = some l' → shapeList l' = shapeList l
  | [], l' => by
    intro h
    exact absurd h (by simp [injectInList])
  | n :: r, l' => by
    intro h
    simp only [injectInList] at h
    split at h
    · rename_i n' hn
      rw [Option.some.injEq] at h
      rw [← h]
      simp only [shapeList]
      rw [injectInNode_shape tags n n' hn]
    · rw [Option.map_eq_some'] at h
      obtain ⟨r', hr, hl⟩ := h
      rw [← hl]
      simp only [shapeList]
      rw [injectInList_shape tags r r' hr]
end

/-- Forest-level text characterisation of the Head Injector. -/
theorem injectForest_texts (tags : String) : ∀ f : Forest,
    forestTexts (injectBeforeCloseHead tags f)
      = spliceTextsD tags (forestTexts f)
  | [] => by simp [injectBeforeCloseHead, forestTexts, spliceTextsD, spliceTexts]
  | t :: r => by
    rw [injectBeforeCloseHead]
    cases hb : t.body with
    | none =>
      dsimp only
      rw [forestTexts, forestTexts, hb]
      show forestTexts (injectBeforeCloseHead tags r)
        = spliceTextsD tags ([] ++ forestTexts r)
      rw [List.nil_append]
      exact injectForest_texts tags r
    | some b =>
      dsimp only
      have ihb := injectInList_texts tags b
      cases hi : injectInList tags b with
      | some b' =>
        rw [hi] at ihb
        rw [forestTexts, forestTexts, hb]
        show textsOfList b' ++ forestTexts r
          = spliceTextsD tags (textsOfList b ++ forestTexts r)
        unfold spliceTextsD
        rw [spliceTexts_append tags _ _, ← ihb]
        rfl
      | none =>
        rw [hi] at ihb
        rw [forestTexts, forestTexts, hb]
        show textsOfList b ++ forestTexts (injectBeforeCloseHead tags r)
          = spliceTextsD tags (textsOfList b ++ forestTexts r)
        rw [injectForest_texts tags r]
        unfold spliceTextsD
        rw [spliceTexts_append tags _ _, ← ihb]
        cases hr : spliceTexts tags (forestTexts r) <;> simp

/-- Forest-level shape preservation of the Head Injector. -/
theorem injectForest_shape (tags : String) : ∀ f : Forest,
    forestShape (injectBeforeCloseHead tags f) = forestShape f
  | [] => rfl
  | t :: r => by
    rw [injectBeforeCloseHead]
    cases hb : t.body with
    | none =>
      dsimp only
      have ih := injectForest_shape tags r
      unfold forestShape at ih ⊢
      rw [List.map_cons, List.map_cons, ih]
    | some b =>
      dsimp only
      cases hi : injectInList tags b with
      | some b' =>
        unfold forestShape
        rw [List.map_cons, List.map_cons]
        rw [hb]
        simp only [bodyShape]
        rw [injectInList_shape tags b b' hi]
      | none =>
        have ih := injectForest_shape tags r
        unfold forestShape at ih ⊢
        rw [List.map_cons, List.map_cons, ih]

/-- A `findSubAux` hit is the first one: the needle matches at the
returned index and at no earlier index. -/
theorem findSubAux_spec (needle : List Char) : ∀ (hay : List Char) (i : Nat),
    findSubAux needle hay = some i →
    needle.isPrefixOf (hay.drop i) = true
    ∧ ∀ j, j < i → needle.isPrefixOf (hay.drop j) = false
  | [], i => by
    intro h
    rw [findSubAux] at h
    split at h
    · rename_i hn
      rw [Option.some.injEq] at h
      rw [← h, hn]
      exact ⟨by simp [List.isPrefixOf], fun j hj => absurd hj (by omega)⟩
    · exact absurd h (by simp)
  | c :: t, i => by
    intro h
    rw [findSubAux] at h
    split at h
    · rename_i hp
      rw [Option.some.injEq] at h
      rw [← h]
      exact ⟨by simpa using hp, fun j hj => absurd hj (by omega)⟩
    · rename_i hp
      rw [Option.map_eq_some'] at h
      obtain ⟨i', hi', hii⟩ := h
      obtain ⟨h1, h2⟩ := findSubAux_spec needle t i' hi'
      rw [← hii]
      constructor
      · simpa using h1
      · intro j hj
        cases j with
        | zero =>
          simp only [Bool.not_eq_true] at hp
          simpa using hp
        | succ j' =>
          have hjj : j' < i' := by omega
          simpa using h2 j' hjj

/-- String form: `findSub` returns the first occurrence index. -/
theorem findSub_first (s pat : String) (i : Nat) (h : findSub s pat = some i) :
    pat.data.isPrefixOf (s.data.drop i) = true
    ∧ ∀ j, j < i → pat.data.isPrefixOf (s.data.drop j) = false :=
  findSubAux_spec pat.data s.data i h

/-- C3: when the deferred-tag string is non-empty the Head Injector
splices it into exactly the first text node — forest enumeration order,
depth-first within each tree, primary bodies before else bodies — whose
literal text contains the closing-head marker, immediately before the
first occurrence of the marker inside that text; at most one splice
happens across the whole forest, no other text node changes, and every
node's shape is preserved. Formally: the depth-first text list of the
result is `spliceTextsD` of the original list (which rewrites exactly
the first marker-containing text and keeps all others), shapes are
untouched, `findSub` returns the first match and `spliceStr` inserts
the tags exactly there. -/
theorem claim3 (tags : String) (f : Forest) (hne : tags ≠ "") :
    forestTexts (injectBeforeCloseHead tags f)
      = spliceTextsD tags (forestTexts f)
    ∧ forestShape (injectBeforeCloseHead tags f) = forestShape f
    ∧ (∀ s i, findSub s marker = some i →
        (marker.data.isPrefixOf (s.data.drop i) = true
         ∧ ∀ j, j < i → marker.data.isPrefixOf (s.data.drop j) = false)
        ∧ spliceStr tags s
          = String.mk (s.data.take i ++ tags.data ++ s.data.drop i)) :=
  ⟨injectForest_texts tags f, injectForest_shape tags f,
   fun s i h => ⟨findSub_first s marker i h, by unfold spliceStr; rw [h]⟩⟩

/-- Witness for C3 on a concrete forest whose first marker-containing
text sits inside an else body. -/
theorem claim3_witness :
    ("T" ≠ "")
    ∧ (forestTexts (injectBeforeCloseHead "T" w3f)
        = spliceTextsD "T" (forestTexts w3f)
      ∧ forestShape (injectBeforeCloseHead "T" w3f) = forestShape w3f
      ∧ (∀ s i, findSub s marker = some i →
          (marker.data.isPrefixOf (s.data.drop i) = true
           ∧ ∀ j, j < i → marker.data.isPrefixOf (s.data.drop j) = false)
          ∧ spliceStr "T" s
            = String.mk (s.data.take i ++ "T".data ++ s.data.drop i))) :=
  ⟨by decide, claim3 "T" w3f (by decide)⟩

/-- C2: heap-level non-mutation. `ParseH` performs every redefinition
and text splice as an update of the freshly cloned result slot (and
reads the render clone's slot); the caller's original slot is untouched,
so executing any named tree of the original forest after the call gives
exactly what it gave before, whether the call succeeded or failed. -/
theorem claim2 (w : World) (h : Nat) (hh : h < w.tmpls.length) (fuel : Nat)
    (fs : FS) (dir url : String) :
    ((ParseH w h fuel fs dir url).1).tmpls[h]? = w.tmpls[h]?
    ∧ ∀ (name : String) (fuel' : Nat),
        (((ParseH w h fuel fs dir url).1).tmpls[h]?).map
          (fun t => execTree t fuel' name)
        = (w.tmpls[h]?).map (fun t => execTree t fuel' name) := by
  have key : ((ParseH w h fuel fs dir url).1).tmpls[h]? = w.tmpls[h]? := by
    unfold ParseH
    dsimp only
    split
    · exact List.getElem?_append_left hh
    · split
      · dsimp only
        rw [List.getElem?_append_left (by simp [List.length_append]; omega)]
        exact List.getElem?_append_left hh
      · dsimp only
        rw [List.getElem?_set_ne (by simp [List.length_append]; omega)]
        rw [List.getElem?_append_left (by simp [List.length_append]; omega)]
        exact List.getElem?_append_left hh
  exact ⟨key, fun name fuel' => by rw [key]⟩

/-- Witness for C2 on a one-slot heap. -/
theorem claim2_witness :
    (0 < wWorld.tmpls.length)
    ∧ (((ParseH wWorld 0 5 fsEmpty "o" "/s").1).tmpls[0]?
        = wWorld.tmpls[0]?
      ∧ ∀ (name : String) (fuel' : Nat),
          (((ParseH wWorld 0 5 fsEmpty "o" "/s").1).tmpls[0]?).map
            (fun t => execTree t fuel' name)
          = (wWorld.tmpls[0]?).map (fun t => execTree t fuel' name)) :=
  ⟨by decide, claim2 wWorld 0 (by decide) 5 fsEmpty "o" "/s"⟩

/-! Injectivity of classification: distinct tree names give distinct
filenames, paths and tags. -/

theorem mkStatic_name (url n sfx : String) (b : Bool) (c : String) :
    (mkStatic url n sfx b c).name = n := by cases b <;> rfl

theorem mkStatic_filename (url n sfx : String) (b : Bool) (c : String) :
    (mkStatic url n sfx b c).filename
      = sfx ++ (if b then ".css" else ".js") := by cases b <;> rfl

theorem mkStatic_isCSS (url n sfx : String) (b : Bool) (c : String) :
    (mkStatic url n sfx b c).isCSS = b := by cases b <;> rfl

theorem mkStatic_tag (url n sfx : String) (b : Bool) (c : String) :
    (mkStatic url n sfx b c).tag
      = (if b then cssTagOf url sfx else jsTagOf url sfx) := by cases b <;> rfl

theorem mkStatic_content (url n sfx : String) (b : Bool) (c : String) :
    (mkStatic url n sfx b c).content = c := by cases b <;> rfl

theorem classifyName_css (n sfx : String)
    (h : classifyName n = some (sfx, true)) :
    n.data = cssMark.data ++ sfx.data := by
  unfold classifyName at h
  split at h
  · rename_i hp
    rw [Option.some.injEq, Prod.mk.injEq] at h
    obtain ⟨h1, _⟩ := h
    unfold strHasPref at hp
    rw [List.isPrefixOf_iff_prefix] at hp
    obtain ⟨rest, hrest⟩ := hp
    have hdata : (strTrimPref cssMark n).data = rest := by
      show n.data.drop cssMark.data.length = rest
      rw [← hrest]
      exact List.drop_left cssMark.data rest
    rw [← h1, hdata, ← hrest]
  · split at h
    · rw [Option.some.injEq, Prod.mk.injEq] at h
      exact absurd h.2 (by simp)
    · exact absurd h (by simp)

theorem classifyName_js (n sfx : String)
    (h : classifyName n = some (sfx, false)) :
    n.data = jsMark.data ++ sfx.data := by
  unfold classifyName at h
  split at h
  · rw [Option.some.injEq, Prod.mk.injEq] at h
    exact absurd h.2 (by simp)
  · split at h
    · rename_i hp
      rw [Option.some.injEq, Prod.mk.injEq] at h
      obtain ⟨h1, _⟩ := h
      unfold strHasPref at hp
      rw [List.isPrefixOf_iff_prefix] at hp
      obtain ⟨rest, hrest⟩ := hp
      have hdata : (strTrimPref jsMark n).data = rest := by
        show n.data.drop jsMark.data.length = rest
        rw [← hrest]
        exact List.drop_left jsMark.data rest
      rw [← h1, hdata, ← hrest]
    · exact absurd h (by simp)

theorem classifyName_inj (n1 n2 sfx1 sfx2 : String) (b : Bool)
    (h1 : classifyName n1 = some (sfx1, b))
    (h2 : classifyName n2 = some (sfx2, b))
    (hs : sfx1 = sfx2) : n1 = n2 := by
  subst hs
  cases b
  · apply String.ext
    rw [classifyName_js n1 sfx1 h1, classifyName_js n2 sfx1 h2]
  · apply String.ext
    rw [classifyName_css n1 sfx1 h1, classifyName_css n2 sfx1 h2]

theorem css_ne_js (a b : String) : a ++ ".css" ≠ b ++ ".js" := by
  intro h
  have hd := congrArg String.data h
  rw [String.data_append, String.data_append] at hd
  have hr := congrArg List.reverse hd
  rw [List.reverse_append, List.reverse_append] at hr
  have e1 : (".css" : String).data.reverse = ['s', 's', 'c', '.'] := rfl
  have e2 : (".js" : String).data.reverse = ['s', 'j', '.'] := rfl
  rw [e1, e2] at hr
  simp at hr

theorem append_right_cancel_str (a b c : String) (h : a ++ c = b ++ c) :
    a = b := by
  apply String.ext
  have hd := congrArg String.data h
  rw [String.data_append, String.data_append] at hd
  exact List.append_cancel_right hd

theorem append_left_cancel_str (a b c : String) (h : a ++ b = a ++ c) :
    b = c := by
  apply String.ext
  have hd := congrArg String.data h
  rw [String.data_append, String.data_append] at hd
  exact List.append_cancel_left hd

theorem filename_determines (sfx1 sfx2 : String) (b1 b2 : Bool)
    (h : sfx1 ++ (if b1 then ".css" else ".js")
       = sfx2 ++ (if b2 then ".css" else ".js")) :
    sfx1 = sfx2 ∧ b1 = b2 := by
  cases b1 <;> cases b2
  · exact ⟨append_right_cancel_str _ _ _ h, rfl⟩
  · exact absurd (Eq.symm h) (css_ne_js sfx2 sfx1)
  · exact absurd h (css_ne_js sfx1 sfx2)
  · exact ⟨append_right_cancel_str _ _ _ h, rfl⟩

/-- Structure of every collected asset: its name classifies, and its
fields are derived from the suffix, kind and rendered content. -/
theorem mem_statics (f : Forest) (fuel : Nat) (url : String)
    (l : List Tree) (statics : List StaticDef)
    (h : collectStatics f fuel url l = .ok statics) :
    ∀ s ∈ statics, ∃ sfx b content,
      classifyName s.name = some (sfx, b)
      ∧ s.filename = sfx ++ (if b then ".css" else ".js")
      ∧ s.isCSS = b
      ∧ s.tag = (if b then cssTagOf url sfx else jsTagOf url sfx)
      ∧ s.content = content := by
  intro s hs
  rw [collectStatics_ok f fuel url l statics h] at hs
  rw [List.mem_filterMap] at hs
  obtain ⟨t, ht, hso⟩ := hs
  unfold staticOf at hso
  split at hso
  · exact absurd hso (by simp)
  rename_i sfx b hcl
  rw [Option.map_eq_some'] at hso
  obtain ⟨content, hex, hmk⟩ := hso
  have hname : s.name = t.name := by rw [← hmk, mkStatic_name]
  refine ⟨sfx, b, content, ?_, ?_, ?_, ?_, ?_⟩
  · rw [hname, hcl]
  · rw [← hmk, mkStatic_filename]
  · rw [← hmk, mkStatic_isCSS]
  · rw [← hmk, mkStatic_tag]
  · rw [← hmk, mkStatic_content]

theorem collectStatics_names_sublist (f : Forest) (fuel : Nat) (url : String) :
    ∀ (l : List Tree) (statics : List StaticDef),
      collectStatics f fuel url l = .ok statics →
      List.Sublist (statics.map (fun s => s.name)) (l.map (fun t => t.name))
  | [], statics => by
    intro h
    rw [collectStatics] at h
    rw [Except.ok.injEq] at h
    rw [← h]
    exact List.nil_sublist _
  | t :: r, statics => by
    intro h
    rw [collectStatics] at h
    split at h
    · exact (collectStatics_names_sublist f fuel url r statics h).trans
        (List.sublist_cons_self _ _)
    rename_i sfx b hcl
    split at h
    · exact absurd h (by simp)
    rename_i content hex
    split at h
    · exact absurd h (by simp)
    rename_i rest hrest
    rw [Except.ok.injEq] at h
    rw [← h, List.map_cons, List.map_cons, mkStatic_name]
    exact List.Sublist.cons₂ _ (collectStatics_names_sublist f fuel url r rest hrest)

/-- Distinct tree names give distinct asset paths. -/
theorem statics_paths_nodup (f : Forest) (fuel : Nat) (url dir : String)
    (statics : List StaticDef)
    (h : collectStatics f fuel url f = .ok statics)
    (hnd : (f.map (fun t => t.name)).Nodup) :
    (statics.map (staticPath dir)).Nodup := by
  have hns : (statics.map (fun s => s.name)).Nodup :=
    List.Nodup.sublist (collectStatics_names_sublist f fuel url f statics h) hnd
  have hp : statics.Pairwise (fun a b => a.name ≠ b.name) :=
    List.pairwise_map.mp hns
  have hinv := mem_statics f fuel url f statics h
  refine List.pairwise_map.mpr (hp.imp_of_mem ?_)
  intro a b ha hb hne hEq
  apply hne
  obtain ⟨sfx1, b1, c1, hcl1, hfn1, _, _, _⟩ := hinv a ha
  obtain ⟨sfx2, b2, c2, hcl2, hfn2, _, _, _⟩ := hinv b hb
  have hfn : a.filename = b.filename := by
    unfold staticPath at hEq
    exact append_left_cancel_str (dir ++ "/") a.filename b.filename hEq
  rw [hfn1, hfn2] at hfn
  obtain ⟨hsfx, hb⟩ := filename_determines sfx1 sfx2 b1 b2 hfn
  subst hb
  exact classifyName_inj a.name b.name sfx1 sfx2 b1 hcl1 hcl2 hsfx

/-! Decomposition of `Parse` into its stages. -/

theorem Parse_ok_decomp (f : Forest) (fuel : Nat) (fs : FS) (dir url : String)
    (fs' : FS) (g : Forest) (h : Parse f fuel fs dir url = (fs', .ok g)) :
    ∃ statics redefs ac aj,
      collectStatics f fuel url f = .ok statics
      ∧ rewriteLoop (findPlacedTemplates f) dir fs statics
          = (fs', .ok (redefs, ac, aj))
      ∧ g = (if String.join (ac ++ aj) = "" then applyRedefs f redefs
             else injectBeforeCloseHead (String.join (ac ++ aj))
               (applyRedefs f redefs)) := by
  unfold Parse at h
  dsimp only at h
  split at h
  · rw [Prod.mk.injEq] at h
    exact absurd h.2 (by simp)
  rename_i statics hcs
  split at h
  · rw [Prod.mk.injEq] at h
    exact absurd h.2 (by simp)
  rename_i fs1 redefs ac aj hrw
  split at h
  · rename_i hc
    rw [Prod.mk.injEq] at h
    obtain ⟨h1, h2⟩ := h
    rw [Except.ok.injEq] at h2
    refine ⟨statics, redefs, ac, aj, hcs, by rw [← h1]; exact hrw, ?_⟩
    rw [if_pos hc, ← h2]
  · rename_i hc
    rw [Prod.mk.injEq] at h
    obtain ⟨h1, h2⟩ := h
    rw [Except.ok.injEq] at h2
    refine ⟨statics, redefs, ac, aj, hcs, by rw [← h1]; exact hrw, ?_⟩
    rw [if_neg hc, ← h2]

theorem Parse_eq_of (f : Forest) (fuel : Nat) (fs : FS) (dir url : String)
    (statics : List StaticDef) (fs' : FS)
    (redefs : List (String × List Node)) (ac aj : List String)
    (hcs : collectStatics f fuel url f = .ok statics)
    (hrw : rewriteLoop (findPlacedTemplates f) dir fs statics
        = (fs', .ok (redefs, ac, aj))) :
    Parse f fuel fs dir url
      = (fs', .ok (if String.join (ac ++ aj) = "" then applyRedefs f redefs
          else injectBeforeCloseHead (String.join (ac ++ aj))
            (applyRedefs f redefs))) := by
  unfold Parse
  dsimp only
  rw [hcs]
  dsimp only
  rw [hrw]
  dsimp only
  by_cases hc : String.join (ac ++ aj) = ""
  · rw [if_pos hc, if_pos hc]
  · rw [if_neg hc, if_neg hc]

/-- C9: behaviour of the idempotent file writer, and its consequences
for `Parse`. (1) a successful write ensures the destination directory
chain exists; (2) when the file already holds byte-identical content
(and reads are reliable) the filesystem's files and clock — hence every
modification time — are untouched; (3) otherwise the file is replaced
with fresh content and a fresh modification time, no other path
changing; (4) running `Parse` a second time over the filesystem it
produced returns the identical filesystem and forest; (5) a `Parse`
call never touches a path that is not one of its asset paths. -/
theorem claim9 :
    (∀ (fs : FS) (p c : String) (fs' : FS),
      writeIfChanged fs p c = .ok fs' →
      ∀ x ∈ dirPaths (dirOf p), x ∈ fs'.dirs)
    ∧ (∀ (fs : FS) (p c : String),
        p ∉ fs.readFails → dirOf p ∉ fs.mkdirFails →
        ∀ fi, fs.lookup p = some fi → fi.content = c →
        ∃ fs', writeIfChanged fs p c = .ok fs'
          ∧ fs'.files = fs.files ∧ fs'.now = fs.now)
    ∧ (∀ (fs : FS) (p c : String),
        dirOf p ∉ fs.mkdirFails → p ∉ fs.writeFails →
        fs.readFile p ≠ some c →
        ∃ fs', writeIfChanged fs p c = .ok fs'
          ∧ fs'.lookup p = some ⟨c, fs.now⟩ ∧ fs'.now = fs.now + 1
          ∧ (∀ q, q ≠ p → fs'.lookup q = fs.lookup q))
    ∧ (∀ (f : Forest) (fuel : Nat) (fs : FS) (dir url : String)
        (fs1 : FS) (g : Forest),
        fs.readFails = [] → (f.map (fun t => t.name)).Nodup →
        Parse f fuel fs dir url = (fs1, .ok g) →
        Parse f fuel fs1 dir url = (fs1, .ok g))
    ∧ (∀ (f : Forest) (fuel : Nat) (fs : FS) (dir url : String)
        (out : FS × Except PError Forest) (q : String),
        Parse f fuel fs dir url = out →
        (∀ statics s, collectStatics f fuel url f = .ok statics →
          s ∈ statics → q ≠ staticPath dir s) →
        out.1.lookup q = fs.lookup q) := by
  refine ⟨?_, ?_, ?_, ?_, ?_⟩
  · intro fs p c fs' h
    exact (writeIfChanged_ok_post fs p c fs' h).2.2.2.2.2.2.1
  · intro fs p c hr hm fi hlk hc
    have heq : fs.readFile p = some c := by
      unfold FS.readFile
      rw [if_neg (by simpa using hr), hlk]
      rw [Option.map_some', hc]
    obtain ⟨fs', h1, h2, h3, _⟩ := writeIfChanged_skip fs p c hm heq
    exact ⟨fs', h1, h2, h3⟩
  · intro fs p c hm hw hne
    obtain ⟨fs', h1, h2, h3, h4, _⟩ := writeIfChanged_write fs p c hm hw hne
    exact ⟨fs', h1, h2, h3, h4⟩
  · intro f fuel fs dir url fs1 g hrf hnd h
    obtain ⟨statics, redefs, ac, aj, hcs, hrw, hg⟩ :=
      Parse_ok_decomp f fuel fs dir url fs1 g h
    have hnd2 := statics_paths_nodup f fuel url dir statics hcs hnd
    have hrw2 := rewriteLoop_id (findPlacedTemplates f) dir statics fs fs1
      (redefs, ac, aj) hrf hnd2 hrw
    have hpe := Parse_eq_of f fuel fs1 dir url statics fs1 redefs ac aj hcs hrw2
    rw [hpe, hg]
  · intro f fuel fs dir url out q h hq
    unfold Parse at h
    dsimp only at h
    split at h
    · rw [← h]
    rename_i statics hcs
    have hq2 : ∀ s ∈ statics, q ≠ staticPath dir s :=
      fun s hs => hq statics s hcs hs
    split at h
    · rename_i fs1 e hrw
      rw [← h]
      exact rewriteLoop_frame (findPlacedTemplates f) dir statics fs
        (fs1, .error e) hrw q hq2
    rename_i fs1 redefs ac aj hrw
    have hfr := rewriteLoop_frame (findPlacedTemplates f) dir statics fs
      (fs1, .ok (redefs, ac, aj)) hrw q hq2
    split at h <;> (rw [← h]; exact hfr)

/-- Witness for C9: parsing the scenario-A forest twice over the empty
filesystem; the second call reproduces the first call's filesystem and
forest exactly (modification times included). -/
theorem claim9_witness :
    (fsEmpty.readFails = []
      ∧ (w9f.map (fun t => t.name)).Nodup
      ∧ Parse w9f 9 fsEmpty "o" "/s" = (fs9, .ok g9))
    ∧ Parse w9f 9 fs9 "o" "/s" = (fs9, .ok g9) :=
  ⟨⟨rfl, by decide, by rfl⟩,
   claim9.2.2.2.1 w9f 9 fsEmpty "o" "/s" fs9 g9 rfl (by decide) (by rfl)⟩

/-! Lemmas about redefinition: `define1` and `applyRedefs`. -/

theorem find?_define1_self : ∀ (f : Forest) (n : String) (b : List Node),
    (define1 f n b).find? (fun t => t.name == n) = some ⟨n, some b⟩
  | [], n, b => by
    unfold define1
    rw [if_neg (by simp), List.nil_append]
    exact List.find?_cons_of_pos _ (by simp)
  | t :: r, n, b => by
    by_cases hany : (t :: r).any (fun t => t.name == n) = true
    · unfold define1
      rw [if_pos hany, List.map_cons]
      by_cases h0 : t.name = n
      · have hh : (if (t.name == n) = true then (⟨n, some b⟩ : Tree) else t)
            = ⟨n, some b⟩ := by simp [h0]
        rw [hh]
        exact List.find?_cons_of_pos _ (by simp)
      · have hh : (if (t.name == n) = true then (⟨n, some b⟩ : Tree) else t)
            = t := by simp [h0]
        rw [hh, List.find?_cons_of_neg _ (by simp [h0])]
        have hrany : r.any (fun t => t.name == n) = true := by
          rw [List.any_cons] at hany
          simp only [Bool.or_eq_true] at hany
          rcases hany with hc | hc
          · exact absurd (by simpa using hc) h0
          · exact hc
        have ih := find?_define1_self r n b
        unfold define1 at ih
        rw [if_pos hrany] at ih
        exact ih
    · unfold define1
      rw [if_neg hany, List.find?_append]
      have hnone : (t :: r).find? (fun t => t.name == n) = none :=
        List.find?_eq_none.mpr (fun x hx hpx =>
          hany (List.any_eq_true.mpr ⟨x, hx, hpx⟩))
      rw [hnone]
      show ([(⟨n, some b⟩ : Tree)].find? (fun t => t.name == n)) = some ⟨n, some b⟩
      exact List.find?_cons_of_pos _ (by simp)

theorem find?_map_repl (n m : String) (b : List Node) (hm : m ≠ n) :
    ∀ f : Forest,
      (f.map (fun t => if t.name == n then (⟨n, some b⟩ : Tree) else t)).find?
        (fun t => t.name == m)
      = f.find? (fun t => t.name == m)
  | [] => rfl
  | t :: r => by
    rw [List.map_cons]
    by_cases h0 : t.name = n
    · have hh : (if (t.name == n) = true then (⟨n, some b⟩ : Tree) else t)
          = ⟨n, some b⟩ := by simp [h0]
      rw [hh, List.find?_cons_of_neg _ (by simp [Ne.symm hm]),
        List.find?_cons_of_neg _ (by simp [h0, Ne.symm hm])]
      exact find?_map_repl n m b hm r
    · have hh : (if (t.name == n) = true then (⟨n, some b⟩ : Tree) else t)
          = t := by simp [h0]
      rw [hh]
      by_cases h1 : t.name = m
      · rw [List.find?_cons_of_pos _ (by simp [h1]),
          List.find?_cons_of_pos _ (by simp [h1])]
      · rw [List.find?_cons_of_neg _ (by simp [h1]),
          List.find?_cons_of_neg _ (by simp [h1])]
        exact find?_map_repl n m b hm r

theorem find?_define1_ne (f : Forest) (n m : String) (b : List Node)
    (hm : m ≠ n) :
    (define1 f n b).find? (fun t => t.name == m)
      = f.find? (fun t => t.name == m) := by
  unfold define1
  split
  · exact find?_map_repl n m b hm f
  · rw [List.find?_append]
    have h1 : ([(⟨n, some b⟩ : Tree)].find? (fun t => t.name == m)) = none := by
      apply List.find?_eq_none.mpr
      intro x hx hpx
      rw [List.mem_singleton] at hx
      rw [hx] at hpx
      have hnm : n = m := by simpa using hpx
      exact hm hnm.symm
    rw [h1, Option.or_none]

theorem find?_applyRedefs_ne :
    ∀ (redefs : List (String × List Node)) (f : Forest) (m : String),
      (∀ p ∈ redefs, p.1 ≠ m) →
      (applyRedefs f redefs).find? (fun t => t.name == m)
        = f.find? (fun t => t.name == m)
  | [], f, m => by
    intro _
    rfl
  | (n, b) :: r, f, m => by
    intro hyp
    rw [applyRedefs]
    rw [find?_applyRedefs_ne r (define1 f n b) m
      (fun p hp => hyp p (List.mem_cons_of_mem _ hp))]
    exact find?_define1_ne f n m b
      (Ne.symm (hyp (n, b) (List.mem_cons_self _ _)))

theorem find?_applyRedefs_self :
    ∀ (redefs : List (String × List Node)) (f : Forest) (n : String)
      (b : List Node),
      (n, b) ∈ redefs → (redefs.map Prod.fst).Nodup →
      (applyRedefs f redefs).find? (fun t => t.name == n) = some ⟨n, some b⟩
  | [], f, n, b => by
    intro hmem _
    exact absurd hmem (List.not_mem_nil _)
  | (n0, b0) :: r, f, n, b => by
    intro hmem hnd
    rw [List.map_cons, List.nodup_cons] at hnd
    obtain ⟨hn0, hndr⟩ := hnd
    rcases List.mem_cons.mp hmem with heq | hmem
    · rw [Prod.mk.injEq] at heq
      obtain ⟨he1, he2⟩ := heq
      subst he1
      subst he2
      rw [applyRedefs]
      rw [find?_applyRedefs_ne r (define1 f n b) n ?_]
      · exact find?_define1_self f n b
      · intro p hp hpn
        have hmem2 : p.1 ∈ List.map Prod.fst r :=
          List.mem_map_of_mem Prod.fst hp
        rw [hpn] at hmem2
        exact hn0 hmem2
    · rw [applyRedefs]
      exact find?_applyRedefs_self r (define1 f n0 b0) n b hmem hndr

theorem mem_define1_self (f : Forest) (n : String) (b : List Node) :
    ∀ t ∈ define1 f n b, t.name = n → t = ⟨n, some b⟩ := by
  intro t ht hn
  unfold define1 at ht
  split at ht
  · rw [List.mem_map] at ht
    obtain ⟨t0, ht0, hmap⟩ := ht
    by_cases h0 : t0.name = n
    · rw [← hmap]
      simp [h0]
    · exfalso
      rw [← hmap] at hn
      rw [if_neg (by simp [h0])] at hn
      exact h0 hn
  · rename_i hany
    rcases List.mem_append.mp ht with hf | hone
    · exfalso
      exact hany (List.any_eq_true.mpr ⟨t, hf, by simp [hn]⟩)
    · exact List.mem_singleton.mp hone

theorem mem_define1_ne (f : Forest) (n : String) (b : List Node) :
    ∀ t ∈ define1 f n b, t.name ≠ n → t ∈ f := by
  intro t ht hn
  unfold define1 at ht
  split at ht
  · rw [List.mem_map] at ht
    obtain ⟨t0, ht0, hmap⟩ := ht
    by_cases h0 : t0.name = n
    · exfalso
      rw [← hmap] at hn
      rw [if_pos (by simp [h0])] at hn
      exact hn rfl
    · rw [← hmap, if_neg (by simp [h0])]
      exact ht0
  · rcases List.mem_append.mp ht with hf | hone
    · exact hf
    · exfalso
      rw [List.mem_singleton] at hone
      rw [hone] at hn
      exact hn rfl

theorem mem_applyRedefs_ne :
    ∀ (redefs : List (String × List Node)) (f : Forest) (t : Tree),
      t ∈ applyRedefs f redefs → (∀ p ∈ redefs, p.1 ≠ t.name) → t ∈ f
  | [], f, t => by
    intro ht _
    exact ht
  | (n0, b0) :: r, f, t => by
    intro ht hyp
    rw [applyRedefs] at ht
    have h1 : t ∈ define1 f n0 b0 :=
      mem_applyRedefs_ne r (define1 f n0 b0) t ht
        (fun p hp => hyp p (List.mem_cons_of_mem _ hp))
    exact mem_define1_ne f n0 b0 t h1
      (fun hc => hyp (n0, b0) (List.mem_cons_self _ _) hc.symm)

theorem mem_applyRedefs_self :
    ∀ (redefs : List (String × List Node)) (f : Forest) (n : String)
      (b : List Node),
      (n, b) ∈ redefs → (redefs.map Prod.fst).Nodup →
      ∀ t ∈ applyRedefs f redefs, t.name = n → t = ⟨n, some b⟩
  | [], f, n, b => by
    intro hmem _
    exact absurd hmem (List.not_mem_nil _)
  | (n0, b0) :: r, f, n, b => by
    intro hmem hnd t ht hn
    rw [List.map_cons, List.nodup_cons] at hnd
    obtain ⟨hn0, hndr⟩ := hnd
    rcases List.mem_cons.mp hmem with heq | hmem
    · rw [Prod.mk.injEq] at heq
      obtain ⟨he1, he2⟩ := heq
      subst he1
      subst he2
      rw [applyRedefs] at ht
      have h1 : t ∈ define1 f n b :=
        mem_applyRedefs_ne r (define1 f n b) t ht (fun p hp hpn => by
          have hmem2 : p.1 ∈ List.map Prod.fst r :=
            List.mem_map_of_mem Prod.fst hp
          rw [hpn, hn] at hmem2
          exact hn0 hmem2)
      exact mem_define1_self f n b t h1 hn
    · rw [applyRedefs] at ht
      exact mem_applyRedefs_self r (define1 f n0 b0) n b hmem hndr t ht hn

/-! Interaction of the injector with redefined trees, execution of a
redefined tree, and tag injectivity. -/

theorem injectInList_text_none (tags s : String)
    (h : containsMark s = false) :
    injectInList tags [Node.text s] = none := by
  unfold containsMark at h
  cases hf : findSub s marker with
  | some i => rw [hf] at h; exact absurd h (by simp)
  | none => simp [injectInList, injectInNode, hf]

theorem find?_inject_of_none (tags m : String) : ∀ f : Forest,
    (∀ t ∈ f, t.name = m →
      (match t.body with
       | some b => injectInList tags b = none
       | none => True)) →
    (injectBeforeCloseHead tags f).find? (fun t => t.name == m)
      = f.find? (fun t => t.name == m)
  | [] => by
    intro _
    rfl
  | t :: r => by
    intro hyp
    rw [injectBeforeCloseHead]
    cases hb : t.body with
    | none =>
      dsimp only
      by_cases hm : t.name = m
      · rw [List.find?_cons_of_pos _ (by simp [hm]),
          List.find?_cons_of_pos _ (by simp [hm])]
      · rw [List.find?_cons_of_neg _ (by simp [hm]),
          List.find?_cons_of_neg _ (by simp [hm])]
        exact find?_inject_of_none tags m r
          (fun t' ht' => hyp t' (List.mem_cons_of_mem t ht'))
    | some b =>
      dsimp only
      cases hi : injectInList tags b with
      | some b' =>
        have hm : t.name ≠ m := by
          intro he
          have hh := hyp t (List.mem_cons_self t r) he
          rw [hb] at hh
          dsimp only at hh
          rw [hh] at hi
          exact absurd hi (by simp)
        rw [List.find?_cons_of_neg _ (by simp [hm]),
          List.find?_cons_of_neg _ (by simp [hm])]
      | none =>
        by_cases hm : t.name = m
        · rw [List.find?_cons_of_pos _ (by simp [hm]),
            List.find?_cons_of_pos _ (by simp [hm])]
        · rw [List.find?_cons_of_neg _ (by simp [hm]),
            List.find?_cons_of_neg _ (by simp [hm])]
          exact find?_inject_of_none tags m r
            (fun t' ht' => hyp t' (List.mem_cons_of_mem t ht'))

theorem exec_invoke_text (g : Forest) (name tag : String) (k : Nat)
    (h : g.find? (fun t => t.name == name)
      = some ⟨name, some [Node.text tag]⟩) :
    execNode g (k + 3) (.invoke name) = some tag := by
  simp [execNode, execList, h, execBody]

theorem cssTag_inj (url s1 s2 : String)
    (h : cssTagOf url s1 = cssTagOf url s2) : s1 = s2 := by
  unfold cssTagOf at h
  have h1 := append_right_cancel_str _ _ _ h
  have h2 := append_right_cancel_str _ _ _ h1
  exact append_left_cancel_str _ _ _ h2

theorem jsTag_inj (url s1 s2 : String)
    (h : jsTagOf url s1 = jsTagOf url s2) : s1 = s2 := by
  unfold jsTagOf at h
  have h1 := append_right_cancel_str _ _ _ h
  have h2 := append_right_cancel_str _ _ _ h1
  exact append_left_cancel_str _ _ _ h2

theorem cssTag_ne_jsTag (url s1 s2 : String) :
    cssTagOf url s1 ≠ jsTagOf url s2 := by
  intro h
  have hd := congrArg String.data h
  unfold cssTagOf jsTagOf at hd
  simp only [String.data_append, List.append_assoc] at hd
  simp at hd

theorem statics_tag_det (url n1 n2 sfx1 sfx2 : String) (b1 b2 : Bool)
    (hcl1 : classifyName n1 = some (sfx1, b1))
    (hcl2 : classifyName n2 = some (sfx2, b2))
    (h : (if b1 then cssTagOf url sfx1 else jsTagOf url sfx1)
       = (if b2 then cssTagOf url sfx2 else jsTagOf url sfx2)) :
    n1 = n2 := by
  cases b1 <;> cases b2
  · exact classifyName_inj n1 n2 sfx1 sfx2 false hcl1 hcl2
      (jsTag_inj url sfx1 sfx2 h)
  · exact absurd (Eq.symm h) (cssTag_ne_jsTag url sfx2 sfx1)
  · exact absurd h (cssTag_ne_jsTag url sfx1 sfx2)
  · exact classifyName_inj n1 n2 sfx1 sfx2 true hcl1 hcl2
      (cssTag_inj url sfx1 sfx2 h)

/-- C4: `Parse` unconditionally redefines every classified asset's tree,
discarding its previous content — when the name is in the placement set
the new body is the single text node holding the asset's tag, otherwise
it is empty. Consequently a placed asset's invocation site renders the
tag exactly once (executing the invocation yields precisely the tag
string) and its tag is not collected for auto-injection. -/
theorem claim4 (f : Forest) (fuel : Nat) (fs : FS) (dir url : String)
    (fs' : FS) (g : Forest) (statics : List StaticDef)
    (hnd : (f.map (fun t => t.name)).Nodup)
    (hcs : collectStatics f fuel url f = .ok statics)
    (hmk : ∀ s ∈ statics, containsMark s.tag = false)
    (hok : Parse f fuel fs dir url = (fs', .ok g)) :
    ∀ s ∈ statics,
      g.find? (fun t => t.name == s.name)
        = some ⟨s.name, some (if (findPlacedTemplates f).contains s.name
            then [Node.text s.tag] else [])⟩
      ∧ ((findPlacedTemplates f).contains s.name = true →
          (∀ k, execNode g (k + 3) (.invoke s.name) = some s.tag)
          ∧ s.tag ∉ (statics.filter (fun x =>
              !(findPlacedTemplates f).contains x.name)).map (fun x => x.tag)) := by
  intro s hs
  obtain ⟨statics2, redefs, ac, aj, hcs2, hrw, hg⟩ :=
    Parse_ok_decomp f fuel fs dir url fs' g hok
  rw [hcs] at hcs2
  rw [Except.ok.injEq] at hcs2
  subst hcs2
  obtain ⟨hrd, _, _⟩ :=
    rewriteLoop_ok_shape (findPlacedTemplates f) dir statics fs fs' redefs ac aj hrw
  have hmemredef : (s.name,
      if (findPlacedTemplates f).contains s.name then [Node.text s.tag]
      else ([] : List Node)) ∈ redefs := by
    rw [hrd]
    exact List.mem_map_of_mem _ hs
  have hndredef : (redefs.map Prod.fst).Nodup := by
    rw [hrd, List.map_map]
    have hcomp : (Prod.fst ∘ fun x : StaticDef => (x.name,
        if (findPlacedTemplates f).contains x.name then [Node.text x.tag]
        else ([] : List Node)))
        = fun x : StaticDef => x.name := rfl
    rw [hcomp]
    exact List.Nodup.sublist
      (collectStatics_names_sublist f fuel url f statics hcs) hnd
  have hfindAR := find?_applyRedefs_self redefs f s.name _ hmemredef hndredef
  have hmempres := mem_applyRedefs_self redefs f s.name _ hmemredef hndredef
  have hinjnone : ∀ t ∈ applyRedefs f redefs, t.name = s.name →
      (match t.body with
       | some b => injectInList (String.join (ac ++ aj)) b = none
       | none => True) := by
    intro t ht hn
    have heq := hmempres t ht hn
    rw [heq]
    dsimp only
    by_cases hp : (findPlacedTemplates f).contains s.name
    · rw [if_pos hp]
      exact injectInList_text_none _ s.tag (hmk s hs)
    · rw [if_neg hp]
      rfl
  have hfind : g.find? (fun t => t.name == s.name)
      = some ⟨s.name, some (if (findPlacedTemplates f).contains s.name
          then [Node.text s.tag] else [])⟩ := by
    rw [hg]
    by_cases hc : String.join (ac ++ aj) = ""
    · rw [if_pos hc]
      exact hfindAR
    · rw [if_neg hc]
      rw [find?_inject_of_none (String.join (ac ++ aj)) s.name
        (applyRedefs f redefs) hinjnone]
      exact hfindAR
  refine ⟨hfind, ?_⟩
  intro hp
  constructor
  · intro k
    apply exec_invoke_text
    rw [hfind, if_pos hp]
  · intro hmem
    rw [List.mem_map] at hmem
    obtain ⟨x, hxf, hxt⟩ := hmem
    rw [List.mem_filter] at hxf
    obtain ⟨hxs, hxp⟩ := hxf
    obtain ⟨sfx1, b1, c1, hcl1, _, _, htag1, _⟩ :=
      mem_statics f fuel url f statics hcs s hs
    obtain ⟨sfx2, b2, c2, hcl2, _, _, htag2, _⟩ :=
      mem_statics f fuel url f statics hcs x hxs
    have hxn : x.name = s.name := by
      apply statics_tag_det url x.name s.name sfx2 sfx1 b2 b1 hcl2 hcl1
      rw [← htag2, ← htag1, hxt]
    rw [hxn, hp] at hxp
    simp at hxp

/-- Witness for C4: in `w4f` the CSS tree is explicitly invoked from
the page and the JS tree is not. -/
theorem claim4_witness :
    ((w4f.map (fun t => t.name)).Nodup
      ∧ collectStatics w4f 9 "/s" w4f = .ok w4statics
      ∧ (∀ s ∈ w4statics, containsMark s.tag = false)
      ∧ Parse w4f 9 fsEmpty "o" "/s" = (fs4, .ok g4)
      ∧ wStatic4 ∈ w4statics)
    ∧ (g4.find? (fun t => t.name == wStatic4.name)
        = some ⟨wStatic4.name,
            some (if (findPlacedTemplates w4f).contains wStatic4.name
              then [Node.text wStatic4.tag] else [])⟩
      ∧ ((findPlacedTemplates w4f).contains wStatic4.name = true →
          (∀ k, execNode g4 (k + 3) (.invoke wStatic4.name)
            = some wStatic4.tag)
          ∧ wStatic4.tag ∉ (w4statics.filter (fun x =>
              !(findPlacedTemplates w4f).contains x.name)).map
                (fun x => x.tag))) :=
  ⟨⟨by decide, by rfl, by decide, by rfl, by decide⟩,
   claim4 w4f 9 fsEmpty "o" "/s" fs4 g4 w4statics
     (by decide) (by rfl) (by decide) (by rfl) wStatic4 (by decide)⟩

/-! Lemmas for the auto-injection scenarios (C1, C7). -/

theorem marks_disjoint (n : String) (h : strHasPref cssMark n = true) :
    strHasPref jsMark n = false := by
  unfold strHasPref at h ⊢
  rw [List.isPrefixOf_iff_prefix] at h
  obtain ⟨r1, hr1⟩ := h
  by_cases h2 : jsMark.data.isPrefixOf n.data = true
  · rw [List.isPrefixOf_iff_prefix] at h2
    obtain ⟨r2, hr2⟩ := h2
    exfalso
    have hcc : cssMark.data ++ r1 = jsMark.data ++ r2 := by rw [hr1, hr2]
    simp [cssMark, jsMark] at hcc
  · exact Bool.eq_false_iff.mpr h2

theorem classifyName_eq_none (n : String)
    (h : isClassifiedName n = false) : classifyName n = none := by
  unfold isClassifiedName at h
  rw [Bool.or_eq_false_iff] at h
  unfold classifyName
  rw [if_neg (by simp [h.1]), if_neg (by simp [h.2])]

theorem collectStatics_renders (f : Forest) (fuel : Nat) (url : String) :
    ∀ (l : List Tree) (statics : List StaticDef),
      collectStatics f fuel url l = .ok statics →
      ∀ t ∈ l, isClassifiedName t.name = true →
        ∃ content, execBody f fuel t.body = some content
  | [], statics => by
    intro _ t ht
    exact absurd ht (List.not_mem_nil t)
  | t0 :: r, statics => by
    intro h t ht hcl
    rw [collectStatics] at h
    rcases List.mem_cons.mp ht with heq | ht
    · subst heq
      split at h
      · rename_i hnone
        exfalso
        have := classifyName_isSome t.name
        rw [hnone, hcl] at this
        exact absurd this (by simp)
      rename_i sfx b hcl2
      split at h
      · exact absurd h (by simp)
      rename_i content hex
      exact ⟨content, hex⟩
    · split at h
      · exact collectStatics_renders f fuel url r statics h t ht hcl
      rename_i sfx b hcl2
      split at h
      · exact absurd h (by simp)
      rename_i content hex
      split at h
      · exact absurd h (by simp)
      rename_i rest hrest
      exact collectStatics_renders f fuel url r rest hrest t ht hcl

theorem filterMap_eq_filterMap_filter {α β : Type} (F : α → Option β)
    (p : α → Bool) (hF : ∀ a, p a = false → F a = none) :
    ∀ l : List α, l.filterMap F = (l.filter p).filterMap F
  | [] => rfl
  | a :: r => by
    rw [List.filterMap_cons, List.filter_cons]
    by_cases hp : p a = true
    · rw [if_pos hp, List.filterMap_cons]
      cases F a <;>
        rw [filterMap_eq_filterMap_filter F p hF r]
    · rw [if_neg (by simpa using hp), hF a (by simpa using hp),
        filterMap_eq_filterMap_filter F p hF r]

theorem filter_single_of_filters {α : Type} (p q : α → Bool)
    (hdisj : ∀ a, p a = true → q a = false) :
    ∀ (l : List α) (j : α), l.filter p = [] → l.filter q = [j] →
      l.filter (fun a => p a || q a) = [j]
  | [], j => by
    intro _ hq
    exact absurd hq (by simp)
  | a :: r, j => by
    intro hp hq
    rw [List.filter_cons] at hp hq ⊢
    by_cases hpa : p a = true
    · rw [if_pos hpa] at hp
      exact absurd hp (by simp)
    · rw [if_neg (by simpa using hpa)] at hp
      by_cases hqa : q a = true
      · rw [if_pos hqa] at hq
        rw [List.cons.injEq] at hq
        rw [if_pos (by simp [hqa])]
        rw [hq.1, List.cons.injEq]
        refine ⟨rfl, ?_⟩
        have hqr : r.filter q = [] := hq.2
        clear hq
        induction r with
        | nil => rfl
        | cons b rb ih =>
          rw [List.filter_cons] at hp hqr ⊢
          by_cases hpb : p b = true
          · rw [if_pos hpb] at hp
            exact absurd hp (by simp)
          · rw [if_neg (by simpa using hpb)] at hp
            by_cases hqb : q b = true
            · rw [if_pos hqb] at hqr
              exact absurd hqr (by simp)
            · rw [if_neg (by simpa using hqb)] at hqr
              rw [if_neg (by simp [hpb, hqb])]
              exact ih hp hqr
      · rw [if_neg (by simpa using hqa)] at hq
        rw [if_neg (by simp [hpa, hqa])]
        exact filter_single_of_filters p q hdisj r j hp hq

theorem filter_two_of_filters {α : Type} (p q : α → Bool)
    (hdisj : ∀ a, p a = true → q a = false) :
    ∀ (l : List α) (c j : α), l.filter p = [c] → l.filter q = [j] →
      l.filter (fun a => p a || q a) = [c, j]
      ∨ l.filter (fun a => p a || q a) = [j, c]
  | [], c, j => by
    intro hp _
    exact absurd hp (by simp)
  | a :: r, c, j => by
    intro hp hq
    rw [List.filter_cons] at hp hq ⊢
    by_cases hpa : p a = true
    · have hqa : q a = false := hdisj a hpa
      rw [if_pos hpa] at hp
      rw [if_neg (by simp [hqa])] at hq
      rw [List.cons.injEq] at hp
      rw [if_pos (by simp [hpa])]
      left
      rw [hp.1, List.cons.injEq]
      exact ⟨rfl, filter_single_of_filters p q hdisj r j hp.2 hq⟩
    · by_cases hqa : q a = true
      · rw [if_pos hqa] at hq
        rw [if_neg (by simpa using hpa)] at hp
        rw [List.cons.injEq] at hq
        rw [if_pos (by simp [hqa])]
        right
        rw [hq.1, List.cons.injEq]
        refine ⟨rfl, ?_⟩
        have hdisj2 : ∀ a, q a = true → p a = false := by
          intro x hqx
          by_cases hpx : p x = true
          · rw [hdisj x hpx] at hqx
            exact absurd hqx (by simp)
          · simpa using hpx
        have h1 := filter_single_of_filters q p hdisj2 r c hq.2 hp
        rw [← h1]
        apply List.filter_congr
        intro x _
        exact Bool.or_comm (p x) (q x)
      · rw [if_neg (by simpa using hpa)] at hp
        rw [if_neg (by simpa using hqa)] at hq
        rw [if_neg (by simp [hpa, hqa])]
        exact filter_two_of_filters p q hdisj r c j hp hq

/-- `forestTexts` distributes over forest concatenation. -/
theorem forestTexts_append : ∀ (a b : Forest),
    forestTexts (a ++ b) = forestTexts a ++ forestTexts b
  | [], b => rfl
  | t :: r, b => by
    show bodyTexts t.body ++ forestTexts (r ++ b)
      = (bodyTexts t.body ++ forestTexts r) ++ forestTexts b
    rw [forestTexts_append r b, List.append_assoc]

/-- When no text contains the marker the spec-side splice fails. -/
theorem spliceTexts_none (tags : String) :
    ∀ ts : List String, (∀ s ∈ ts, containsMark s = false) →
      spliceTexts tags ts = none
  | [] => fun _ => rfl
  | s :: r => by
    intro h
    simp only [spliceTexts]
    rw [if_neg (by simp [h s (List.mem_cons_self s r)]),
      spliceTexts_none tags r (fun x hx => h x (List.mem_cons_of_mem s hx))]
    rfl

/-- When no text of the forest contains the marker the injector is the
identity: the tag string is silently dropped. -/
theorem injectForest_id (tags : String) :
    ∀ f : Forest, (∀ s ∈ forestTexts f, containsMark s = false) →
      injectBeforeCloseHead tags f = f
  | [] => fun _ => rfl
  | t :: r => by
    intro h
    have hr : ∀ s ∈ forestTexts r, containsMark s = false := by
      intro s hs
      apply h s
      rw [forestTexts]
      exact List.mem_append_right _ hs
    rw [injectBeforeCloseHead]
    cases hb : t.body with
    | none =>
      dsimp only
      rw [injectForest_id tags r hr]
    | some b =>
      dsimp only
      have hbt : ∀ s ∈ textsOfList b, containsMark s = false := by
        intro s hs
        apply h s
        rw [forestTexts, hb]
        show s ∈ textsOfList b ++ forestTexts r
        exact List.mem_append_left _ hs
      have hnone : injectInList tags b = none := by
        have hx := injectInList_texts tags b
        rw [spliceTexts_none tags (textsOfList b) hbt] at hx
        exact Option.map_eq_none'.mp hx
      rw [hnone]
      dsimp only
      rw [injectForest_id tags r hr]

/-- Texts of a filtered forest after replacing the `n`-named trees by an
empty body: the replaced trees contribute nothing. -/
theorem texts_filter_map_repl (n : String) (q : String → Bool) :
    ∀ f : Forest,
      forestTexts ((f.map (fun t =>
          if t.name == n then ⟨n, some ([] : List Node)⟩ else t)).filter
        (fun t => q t.name))
      = forestTexts (f.filter (fun t => !(t.name == n) && q t.name))
  | [] => rfl
  | t :: r => by
    rw [List.map_cons, List.filter_cons, List.filter_cons]
    by_cases hn : (t.name == n) = true
    · rw [if_pos hn]
      dsimp only
      by_cases hq : q n = true
      · rw [if_pos hq, if_neg (by simp [hn])]
        show textsOfList [] ++ forestTexts _ = _
        rw [textsOfList, List.nil_append]
        exact texts_filter_map_repl n q r
      · rw [if_neg hq, if_neg (by simp [hn])]
        exact texts_filter_map_repl n q r
    · have hn2 : (t.name == n) = false := Bool.eq_false_iff.mpr hn
      rw [if_neg hn]
      by_cases hq : q t.name = true
      · rw [if_pos hq, if_pos (by simp [hn2, hq])]
        show bodyTexts t.body ++ _ = bodyTexts t.body ++ _
        rw [texts_filter_map_repl n q r]
      · rw [if_neg hq, if_neg (by simp [hn2, hq])]
        exact texts_filter_map_repl n q r

/-- Applying redefinitions whose bodies are all empty removes exactly the
redefined trees' texts, keeping every other tree's texts in order. -/
theorem texts_applyRedefs_empty :
    ∀ (rs : List (String × List Node)) (f : Forest),
      (∀ p ∈ rs, p.2 = ([] : List Node)) →
      forestTexts (applyRedefs f rs)
        = forestTexts (f.filter (fun t => !(rs.map Prod.fst).contains t.name))
  | [], f => by
    intro _
    rw [applyRedefs]
    congr 1
    refine (List.filter_eq_self.mpr ?_).symm
    intro t _
    rfl
  | (n, b) :: rs, f => by
    intro h
    have hb : b = [] := h (n, b) (List.mem_cons_self _ _)
    subst hb
    rw [applyRedefs,
      texts_applyRedefs_empty rs (define1 f n [])
        (fun p hp => h p (List.mem_cons_of_mem _ hp))]
    unfold define1
    by_cases ha : f.any (fun t => t.name == n) = true
    · rw [if_pos ha,
        texts_filter_map_repl n (fun m => !(rs.map Prod.fst).contains m) f]
      congr 1
      apply List.filter_congr
      intro t _
      simp [List.contains_cons, Bool.not_or]
    · rw [if_neg ha, List.filter_append, forestTexts_append]
      have h2 : forestTexts (List.filter
          (fun t => !(rs.map Prod.fst).contains t.name)
          [(⟨n, some ([] : List Node)⟩ : Tree)]) = [] := by
        rw [List.filter_cons]
        by_cases hc : (!(rs.map Prod.fst).contains
            (⟨n, some ([] : List Node)⟩ : Tree).name) = true
        · rw [if_pos hc]
          rfl
        · rw [if_neg hc]
          rfl
      rw [h2, List.append_nil]
      congr 1
      apply List.filter_congr
      intro t ht
      have ha3 : f.any (fun t => t.name == n) = false := Bool.eq_false_iff.mpr ha
      rw [List.any_eq_false] at ha3
      have ha2 : (t.name == n) = false := Bool.eq_false_iff.mpr (ha3 t ht)
      simp [List.contains_cons, ha2]

/-- A text of the forest after one name-replacement came from the
original forest or from the new body. -/
theorem mem_texts_map_repl (n : String) (b : List Node) :
    ∀ (f : Forest) (x : String),
      x ∈ forestTexts (f.map (fun t =>
        if t.name == n then ⟨n, some b⟩ else t)) →
      x ∈ forestTexts f ∨ x ∈ textsOfList b
  | [], x => by
    intro hx
    exact absurd hx (List.not_mem_nil x)
  | t :: r, x => by
    intro hx
    rw [List.map_cons, forestTexts] at hx
    rcases List.mem_append.mp hx with h1 | h2
    · by_cases hn : (t.name == n) = true
      · rw [if_pos hn] at h1
        right
        exact h1
      · rw [if_neg hn] at h1
        left
        rw [forestTexts]
        exact List.mem_append_left _ h1
    · rcases mem_texts_map_repl n b r x h2 with h3 | h3
      · left
        rw [forestTexts]
        exact List.mem_append_right _ h3
      · right
        exact h3

/-- A text of the forest after one redefinition came from the original
forest or from the new body. -/
theorem mem_texts_define1 (f : Forest) (n : String) (b : List Node)
    (x : String) (hx : x ∈ forestTexts (define1 f n b)) :
    x ∈ forestTexts f ∨ x ∈ textsOfList b := by
  unfold define1 at hx
  split at hx
  · exact mem_texts_map_repl n b f x hx
  · rw [forestTexts_append] at hx
    rcases List.mem_append.mp hx with h1 | h2
    · exact Or.inl h1
    · right
      rw [forestTexts, forestTexts, List.append_nil] at h2
      exact h2

/-- A text of the redefined forest came from the original forest or from
one of the redefinition bodies. -/
theorem mem_texts_applyRedefs :
    ∀ (rs : List (String × List Node)) (f : Forest) (x : String),
      x ∈ forestTexts (applyRedefs f rs) →
      x ∈ forestTexts f ∨ ∃ p ∈ rs, x ∈ textsOfList p.2
  | [], f, x => by
    intro hx
    rw [applyRedefs] at hx
    exact Or.inl hx
  | (n, b) :: rs, f, x => by
    intro hx
    rw [applyRedefs] at hx
    rcases mem_texts_applyRedefs rs (define1 f n b) x hx with h1 | h2
    · rcases mem_texts_define1 f n b x h1 with ha | hb
      · exact Or.inl ha
      · exact Or.inr ⟨(n, b), List.mem_cons_self _ _, hb⟩
    · obtain ⟨p, hp, hpx⟩ := h2
      exact Or.inr ⟨p, List.mem_cons_of_mem _ hp, hpx⟩

/-- Join of a two-element list. -/
theorem join_two (a b : String) : String.join [a, b] = a ++ b := by
  rw [join_cons, join_cons]
  show a ++ (b ++ String.join []) = a ++ b
  rw [show String.join [] = "" from rfl, String.append_empty]

/-- A CSS tag followed by a JS tag is never the empty string. -/
theorem cssTag_append_ne_empty (url s1 s2 : String) :
    cssTagOf url s1 ++ jsTagOf url s2 ≠ "" := by
  intro h
  have hd := congrArg String.data h
  simp [cssTagOf, jsTagOf, String.data_append] at hd

/-- C7 (amended): when no literal text of the forest contains the
closing-head marker — and no collected asset's tag contains it either —
`Parse` still succeeds, every asset file is written with its rendered
bytes, and the returned forest is exactly the redefined clone with no
splice applied anywhere: the deferred tags are silently dropped. Each
unplaced asset's tree is redefined to an empty body, so its tag reaches
no tree of the result. The original claim's stronger conclusion that the
tags "appear nowhere in the rendered output" fails when a page's literal
text already coincides with a tag (`claim7_cex`). -/
theorem claim7 (f : Forest) (fuel : Nat) (fs : FS) (dir url : String)
    (statics : List StaticDef) (fs' : FS)
    (redefs : List (String × List Node)) (autoCSS autoJS : List String)
    (hnd : (f.map (fun t => t.name)).Nodup)
    (hcs : collectStatics f fuel url f = .ok statics)
    (hrw : rewriteLoop (findPlacedTemplates f) dir fs statics
        = (fs', .ok (redefs, autoCSS, autoJS)))
    (hm1 : ∀ s ∈ forestTexts f, containsMark s = false)
    (hm2 : ∀ s ∈ statics, containsMark s.tag = false) :
    Parse f fuel fs dir url = (fs', .ok (applyRedefs f redefs))
    ∧ (∀ s ∈ statics, ∃ m,
        fs'.lookup (staticPath dir s) = some ⟨s.content, m⟩)
    ∧ redefs = statics.map (fun s => (s.name,
        if (findPlacedTemplates f).contains s.name
        then [Node.text s.tag] else ([] : List Node))) := by
  obtain ⟨hsh, _, _⟩ := rewriteLoop_ok_shape (findPlacedTemplates f) dir
    statics fs fs' redefs autoCSS autoJS hrw
  have hmark : ∀ x ∈ forestTexts (applyRedefs f redefs),
      containsMark x = false := by
    intro x hx
    rcases mem_texts_applyRedefs redefs f x hx with h1 | h2
    · exact hm1 x h1
    · obtain ⟨p, hp, hpx⟩ := h2
      rw [hsh] at hp
      rw [List.mem_map] at hp
      obtain ⟨s, hs, hps⟩ := hp
      rw [← hps] at hpx
      by_cases hpl : (findPlacedTemplates f).contains s.name = true
      · rw [if_pos hpl] at hpx
        have hxs : x = s.tag := by
          simpa [textsOfList, textsOfNode] using hpx
        rw [hxs]
        exact hm2 s hs
      · rw [if_neg hpl] at hpx
        exact absurd hpx (by simp [textsOfList])
  have hParse := Parse_eq_of f fuel fs dir url statics fs' redefs
    autoCSS autoJS hcs hrw
  have hinj : (if String.join (autoCSS ++ autoJS) = ""
      then applyRedefs f redefs
      else injectBeforeCloseHead (String.join (autoCSS ++ autoJS))
        (applyRedefs f redefs)) = applyRedefs f redefs := by
    by_cases hj : String.join (autoCSS ++ autoJS) = ""
    · rw [if_pos hj]
    · rw [if_neg hj]
      exact injectForest_id _ (applyRedefs f redefs) hmark
  rw [hinj] at hParse
  refine ⟨hParse, ?_, hsh⟩
  exact rewriteLoop_content (findPlacedTemplates f) dir statics fs fs'
    (redefs, autoCSS, autoJS)
    (statics_paths_nodup f fuel url dir statics hcs hnd) hrw

/-- Counterexample to C7 as stated: in `w7cex` no literal text contains
the closing-head marker, `Parse` succeeds and writes the asset file, yet
the rendered page equals the CSS tag — the "dropped" tag does appear in
the rendered output, because the page's own literal text already
coincides with it. -/
theorem claim7_cex :
    (forestTexts w7cex).all (fun s => !containsMark s) = true
    ∧ (Parse w7cex 9 fsEmpty "o" "/s").2.map (fun g => execTree g 9 "page")
        = .ok (some (cssTagOf "/s" "a"))
    ∧ findSub (cssTagOf "/s" "a") (cssTagOf "/s" "a") = some 0
    ∧ (Parse w7cex 9 fsEmpty "o" "/s").1.lookup "o/a.css"
        = some ⟨"x", 0⟩ :=
  ⟨by decide, by rfl, by decide, by rfl⟩

/-- Witness for C7: the marker-free forest `w7f`, whose two assets are
written and whose tags are dropped without error. -/
theorem claim7_witness :
    ((w7f.map (fun t => t.name)).Nodup
      ∧ collectStatics w7f 9 "/s" w7f = .ok w7statics
      ∧ rewriteLoop (findPlacedTemplates w7f) "o" fsEmpty w7statics
          = (fs7, .ok (r7, a7, j7))
      ∧ (∀ s ∈ forestTexts w7f, containsMark s = false)
      ∧ (∀ s ∈ w7statics, containsMark s.tag = false))
    ∧ (Parse w7f 9 fsEmpty "o" "/s" = (fs7, .ok (applyRedefs w7f r7))
      ∧ (∀ s ∈ w7statics, ∃ m,
          fs7.lookup (staticPath "o" s) = some ⟨s.content, m⟩)
      ∧ r7 = w7statics.map (fun s => (s.name,
          if (findPlacedTemplates w7f).contains s.name
          then [Node.text s.tag] else ([] : List Node)))) :=
  ⟨⟨by decide, by rfl, by rfl, by decide, by decide⟩,
   claim7 w7f 9 fsEmpty "o" "/s" w7statics fs7 r7 a7 j7
     (by decide) (by rfl) (by rfl) (by decide) (by decide)⟩

/-- The two classification marks are mutually exclusive, JS side. -/
theorem marks_disjoint2 (n : String) (h : strHasPref jsMark n = true) :
    strHasPref cssMark n = false := by
  unfold strHasPref at h ⊢
  rw [List.isPrefixOf_iff_prefix] at h
  obtain ⟨r1, hr1⟩ := h
  by_cases h2 : cssMark.data.isPrefixOf n.data = true
  · rw [List.isPrefixOf_iff_prefix] at h2
    obtain ⟨r2, hr2⟩ := h2
    exfalso
    have hcc : jsMark.data ++ r1 = cssMark.data ++ r2 := by rw [hr1, hr2]
    simp [cssMark, jsMark] at hcc
  · exact Bool.eq_false_iff.mpr h2

/-- The asset produced for a rendering CSS tree. -/
theorem staticOf_css (f : Forest) (fuel : Nat) (url : String) (t : Tree)
    (cc : String)
    (hp : strHasPref cssMark t.name = true)
    (hex : execBody f fuel t.body = some cc) :
    staticOf f fuel url t
      = some ⟨t.name, strTrimPref cssMark t.name ++ ".css",
          cssTagOf url (strTrimPref cssMark t.name), cc, true⟩ := by
  unfold staticOf classifyName
  rw [if_pos hp]
  dsimp only
  rw [hex]
  rfl

/-- The asset produced for a rendering JS tree. -/
theorem staticOf_js (f : Forest) (fuel : Nat) (url : String) (t : Tree)
    (jc : String)
    (hp : strHasPref jsMark t.name = true)
    (hex : execBody f fuel t.body = some jc) :
    staticOf f fuel url t
      = some ⟨t.name, strTrimPref jsMark t.name ++ ".js",
          jsTagOf url (strTrimPref jsMark t.name), jc, false⟩ := by
  unfold staticOf classifyName
  rw [if_neg (by simp [marks_disjoint2 t.name hp]), if_pos hp]
  dsimp only
  rw [hex]
  rfl

/-- An unclassified tree produces no asset. -/
theorem staticOf_none (f : Forest) (fuel : Nat) (url : String) (t : Tree)
    (h : isClassifiedName t.name = false) :
    staticOf f fuel url t = none := by
  unfold staticOf
  rw [classifyName_eq_none t.name h]

/-- A member satisfying the predicate of a singleton filter is that
singleton. -/
theorem eq_of_filter_singleton {α : Type} (p : α → Bool) (l : List α)
    (c : α) (h : l.filter p = [c]) (t : α) (ht : t ∈ l)
    (hp : p t = true) : t = c := by
  have hmem : t ∈ l.filter p := List.mem_filter.mpr ⟨ht, hp⟩
  rw [h] at hmem
  simpa using hmem

/-- C1 (amended): for a forest with exactly one CSS tree `c` and one JS
tree `j`, neither explicitly placed, a successful `Parse` writes the two
files at `outputDir/{stem}.css` and `outputDir/{stem}.js` holding the
trees' rendered bytes, and the returned forest's depth-first text list
is the text list of the unclassified trees with the string
"CSS tag followed by JS tag" spliced immediately before the first
closing-head marker — so whenever a marker exists in a literal text,
both tags end up strictly before it, with the CSS tag first. The
original claim's unconditional conclusion that the tags occur before the
marker in the rendered output is false when no literal text contains the
marker at all (`claim1_cex`: both tags are silently dropped). -/
theorem claim1 (f : Forest) (fuel : Nat) (fs : FS) (dir url : String)
    (fs' : FS) (g : Forest) (c j : Tree)
    (hc : f.filter (fun t => strHasPref cssMark t.name) = [c])
    (hj : f.filter (fun t => strHasPref jsMark t.name) = [j])
    (hpc : (findPlacedTemplates f).contains c.name = false)
    (hpj : (findPlacedTemplates f).contains j.name = false)
    (hp : Parse f fuel fs dir url = (fs', .ok g)) :
    (∃ cc, execBody f fuel c.body = some cc
      ∧ ∃ m, fs'.lookup (dir ++ "/" ++ (strTrimPref cssMark c.name ++ ".css"))
          = some ⟨cc, m⟩)
    ∧ (∃ jc, execBody f fuel j.body = some jc
      ∧ ∃ m, fs'.lookup (dir ++ "/" ++ (strTrimPref jsMark j.name ++ ".js"))
          = some ⟨jc, m⟩)
    ∧ forestTexts g = spliceTextsD
        (cssTagOf url (strTrimPref cssMark c.name)
          ++ jsTagOf url (strTrimPref jsMark j.name))
        (forestTexts (f.filter (fun t => !isClassifiedName t.name))) := by
  have hcmem0 : c ∈ f.filter (fun t => strHasPref cssMark t.name) := by
    rw [hc]
    exact List.mem_cons_self _ _
  have hcf : c ∈ f := (List.mem_filter.mp hcmem0).1
  have hcp : strHasPref cssMark c.name = true := (List.mem_filter.mp hcmem0).2
  have hjmem0 : j ∈ f.filter (fun t => strHasPref jsMark t.name) := by
    rw [hj]
    exact List.mem_cons_self _ _
  have hjf : j ∈ f := (List.mem_filter.mp hjmem0).1
  have hjp : strHasPref jsMark j.name = true := (List.mem_filter.mp hjmem0).2
  have hjpc : strHasPref cssMark j.name = false := marks_disjoint2 j.name hjp
  obtain ⟨statics, redefs, ac, aj, hcs, hrw, hg⟩ :=
    Parse_ok_decomp f fuel fs dir url fs' g hp
  have hclc : isClassifiedName c.name = true := by
    unfold isClassifiedName
    rw [hcp]
    rfl
  have hclj : isClassifiedName j.name = true := by
    unfold isClassifiedName
    rw [hjp, hjpc]
    rfl
  obtain ⟨cc, hcc⟩ := collectStatics_renders f fuel url f statics hcs c hcf hclc
  obtain ⟨jc, hjc⟩ := collectStatics_renders f fuel url f statics hcs j hjf hclj
  have hFc := staticOf_css f fuel url c cc hcp hcc
  have hFj := staticOf_js f fuel url j jc hjp hjc
  have hstat2 : statics
      = (f.filter (fun t => strHasPref cssMark t.name
          || strHasPref jsMark t.name)).filterMap (staticOf f fuel url) := by
    rw [collectStatics_ok f fuel url f statics hcs]
    exact filterMap_eq_filterMap_filter (staticOf f fuel url)
      (fun t => strHasPref cssMark t.name || strHasPref jsMark t.name)
      (fun t ht => staticOf_none f fuel url t
        (by unfold isClassifiedName; exact ht)) f
  have hfil2 := filter_two_of_filters
    (fun t : Tree => strHasPref cssMark t.name)
    (fun t : Tree => strHasPref jsMark t.name)
    (fun t ht => marks_disjoint t.name ht) f c j hc hj
  have hstat_or : statics
      = [⟨c.name, strTrimPref cssMark c.name ++ ".css",
          cssTagOf url (strTrimPref cssMark c.name), cc, true⟩,
         ⟨j.name, strTrimPref jsMark j.name ++ ".js",
          jsTagOf url (strTrimPref jsMark j.name), jc, false⟩]
      ∨ statics
      = [⟨j.name, strTrimPref jsMark j.name ++ ".js",
          jsTagOf url (strTrimPref jsMark j.name), jc, false⟩,
         ⟨c.name, strTrimPref cssMark c.name ++ ".css",
          cssTagOf url (strTrimPref cssMark c.name), cc, true⟩] := by
    rcases hfil2 with h | h
    · left
      rw [hstat2, h]
      simp [List.filterMap_cons, hFc, hFj]
    · right
      rw [hstat2, h]
      simp [List.filterMap_cons, hFc, hFj]
  have hsmem : ∀ s ∈ statics,
      s = (⟨c.name, strTrimPref cssMark c.name ++ ".css",
          cssTagOf url (strTrimPref cssMark c.name), cc, true⟩ : StaticDef)
      ∨ s = (⟨j.name, strTrimPref jsMark j.name ++ ".js",
          jsTagOf url (strTrimPref jsMark j.name), jc, false⟩ : StaticDef) := by
    intro s hs
    rcases hstat_or with h | h <;> rw [h] at hs <;>
      (rcases List.mem_cons.mp hs with h1 | h1
       · first
         | exact Or.inl h1
         | exact Or.inr h1
       · rw [List.mem_singleton] at h1
         first
         | exact Or.inl h1
         | exact Or.inr h1)
  have hscmem : (⟨c.name, strTrimPref cssMark c.name ++ ".css",
      cssTagOf url (strTrimPref cssMark c.name), cc, true⟩ : StaticDef)
      ∈ statics := by
    rcases hstat_or with h | h <;> rw [h] <;> simp
  have hsjmem : (⟨j.name, strTrimPref jsMark j.name ++ ".js",
      jsTagOf url (strTrimPref jsMark j.name), jc, false⟩ : StaticDef)
      ∈ statics := by
    rcases hstat_or with h | h <;> rw [h] <;> simp
  obtain ⟨hsh, hac, haj⟩ := rewriteLoop_ok_shape (findPlacedTemplates f) dir
    statics fs fs' redefs ac aj hrw
  have hunplaced : ∀ s ∈ statics,
      (findPlacedTemplates f).contains s.name = false := by
    intro s hs
    rcases hsmem s hs with h | h <;> rw [h]
    · exact hpc
    · exact hpj
  have hrede : ∀ p ∈ redefs, p.2 = ([] : List Node) := by
    intro p hp0
    rw [hsh] at hp0
    rw [List.mem_map] at hp0
    obtain ⟨s, hs, hps⟩ := hp0
    rw [← hps]
    dsimp only
    rw [if_neg (by rw [hunplaced s hs]; simp)]
  have hrdefmap : redefs.map Prod.fst = statics.map (fun s => s.name) := by
    rw [hsh, List.map_map]
    rfl
  have hnamescont : ∀ m : String,
      (statics.map (fun s => s.name)).contains m
      = ([c.name, j.name].contains m) := by
    intro m
    rcases hstat_or with h | h <;> rw [h] <;>
      simp [List.contains_cons, Bool.or_comm]
  have hpc2 : c.name ∉ findPlacedTemplates f := by simpa using hpc
  have hpj2 : j.name ∉ findPlacedTemplates f := by simpa using hpj
  have hacv : ac = [cssTagOf url (strTrimPref cssMark c.name)] := by
    rcases hstat_or with h | h <;> (rw [hac, h]; simp [hpc2, hpj2])
  have hajv : aj = [jsTagOf url (strTrimPref jsMark j.name)] := by
    rcases hstat_or with h | h <;> (rw [haj, h]; simp [hpc2, hpj2])
  have hjoin : String.join (ac ++ aj)
      = cssTagOf url (strTrimPref cssMark c.name)
        ++ jsTagOf url (strTrimPref jsMark j.name) := by
    rw [hacv, hajv]
    exact join_two _ _
  have hnejoin : String.join (ac ++ aj) ≠ "" := by
    rw [hjoin]
    exact cssTag_append_ne_empty url _ _
  rw [if_neg hnejoin] at hg
  have htexts : forestTexts (applyRedefs f redefs)
      = forestTexts (f.filter (fun t => !isClassifiedName t.name)) := by
    rw [texts_applyRedefs_empty redefs f hrede]
    congr 1
    apply List.filter_congr
    intro t ht
    rw [hrdefmap]
    by_cases h2 : strHasPref cssMark t.name = true
    · have hteq : t = c := eq_of_filter_singleton _ f c hc t ht h2
      subst hteq
      have hmem : t.name ∈ statics.map (fun s => s.name) := by
        rcases hstat_or with h | h <;> rw [h] <;> simp
      simp [isClassifiedName, h2, hmem]
    · by_cases h3 : strHasPref jsMark t.name = true
      · have hteq : t = j := eq_of_filter_singleton _ f j hj t ht h3
        subst hteq
        have hmem : t.name ∈ statics.map (fun s => s.name) := by
          rcases hstat_or with h | h <;> rw [h] <;> simp
        simp [isClassifiedName, h3, hmem]
      · have hnmem : t.name ∉ statics.map (fun s => s.name) := by
          intro hmem
          have hb : ([c.name, j.name].contains t.name) = true := by
            rw [← hnamescont t.name]
            simpa using hmem
          simp [List.contains_cons] at hb
          rcases hb with hEq | hEq
          · exact h2 (by rw [hEq]; exact hcp)
          · exact h3 (by rw [hEq]; exact hjp)
        simp [isClassifiedName, hnmem,
          Bool.eq_false_iff.mpr h2, Bool.eq_false_iff.mpr h3]
  have hnodup : (statics.map (staticPath dir)).Nodup := by
    have hne2 : staticPath dir
        (⟨c.name, strTrimPref cssMark c.name ++ ".css",
          cssTagOf url (strTrimPref cssMark c.name), cc, true⟩ : StaticDef)
        ≠ staticPath dir
        (⟨j.name, strTrimPref jsMark j.name ++ ".js",
          jsTagOf url (strTrimPref jsMark j.name), jc, false⟩ : StaticDef) := by
      intro hEq
      exact css_ne_js _ _ (append_left_cancel_str (dir ++ "/") _ _ hEq)
    rcases hstat_or with h | h <;>
      rw [h, List.map_cons, List.map_cons, List.map_nil]
    · refine List.nodup_cons.mpr ⟨?_, List.nodup_singleton _⟩
      intro hmem
      rw [List.mem_singleton] at hmem
      exact hne2 hmem
    · refine List.nodup_cons.mpr ⟨?_, List.nodup_singleton _⟩
      intro hmem
      rw [List.mem_singleton] at hmem
      exact hne2 hmem.symm
  have hfiles := rewriteLoop_content (findPlacedTemplates f) dir statics
    fs fs' (redefs, ac, aj) hnodup hrw
  refine ⟨⟨cc, hcc, ?_⟩, ⟨jc, hjc, ?_⟩, ?_⟩
  · exact hfiles _ hscmem
  · exact hfiles _ hsjmem
  · rw [hg, injectForest_texts, hjoin, htexts]

/-- Counterexample to C1 as stated: `w7f` has exactly one CSS tree and
one JS tree, neither explicitly invoked, and `Parse` succeeds — but no
literal text contains the closing-head marker, so the tags are silently
dropped: the rendered page is plain "hello", which contains neither tag
nor marker, refuting "the CSS tag occurs strictly before the first
closing-head marker" in the output. -/
theorem claim1_cex :
    w7f.filter (fun t => strHasPref cssMark t.name)
      = [⟨"static-css-a", some [.text "bodyA"]⟩]
    ∧ w7f.filter (fun t => strHasPref jsMark t.name)
      = [⟨"static-js-b", some [.text "bodyB"]⟩]
    ∧ findPlacedTemplates w7f = []
    ∧ (Parse w7f 9 fsEmpty "o" "/s").2.map (fun g => execTree g 9 "page")
      = .ok (some "hello")
    ∧ findSub "hello" (cssTagOf "/s" "a") = none
    ∧ findSub "hello" (jsTagOf "/s" "b") = none
    ∧ findSub "hello" marker = none :=
  ⟨by rfl, by rfl, by rfl, by rfl, by decide, by decide, by decide⟩

/-- Witness for C1: the scenario-A forest `w9f`, whose page has a head
section; both files are written and both tags are spliced before the
marker. -/
theorem claim1_witness :
    (w9f.filter (fun t => strHasPref cssMark t.name) = [w1c]
      ∧ w9f.filter (fun t => strHasPref jsMark t.name) = [w1j]
      ∧ (findPlacedTemplates w9f).contains w1c.name = false
      ∧ (findPlacedTemplates w9f).contains w1j.name = false
      ∧ Parse w9f 9 fsEmpty "o" "/s" = (fs9, .ok g9))
    ∧ ((∃ cc, execBody w9f 9 w1c.body = some cc
        ∧ ∃ m, fs9.lookup
            ("o" ++ "/" ++ (strTrimPref cssMark w1c.name ++ ".css"))
            = some ⟨cc, m⟩)
      ∧ (∃ jc, execBody w9f 9 w1j.body = some jc
        ∧ ∃ m, fs9.lookup
            ("o" ++ "/" ++ (strTrimPref jsMark w1j.name ++ ".js"))
            = some ⟨jc, m⟩)
      ∧ forestTexts g9 = spliceTextsD
          (cssTagOf "/s" (strTrimPref cssMark w1c.name)
            ++ jsTagOf "/s" (strTrimPref jsMark w1j.name))
          (forestTexts (w9f.filter (fun t => !isClassifiedName t.name)))) :=
  ⟨⟨by rfl, by rfl, by decide, by decide, by rfl⟩,
   claim1 w9f 9 fsEmpty "o" "/s" fs9 g9 w1c w1j
     (by rfl) (by rfl) (by decide) (by decide) (by rfl)⟩

end TemplateStatic
